import Mathlib

/-
Verification of the zakros repository: a Raft-replicated in-memory
key-value server speaking the RESP protocol.

This file shallowly embeds the relevant Rust source files:
  * zakros-raft/src/storage/memory.rs and storage/disk.rs (log stores),
  * zakros-raft/src/server.rs (the Raft core, as pure state-transition
    functions over a node state, plus a cluster-level step relation),
  * zakros-redis/src/string.rs (split_args),
  * zakros-redis/src/resp.rs (RESP encoder and multibulk decoder),
  * zakros/src/connection.rs (session transaction dispatch),
and proves or refutes the frozen claims about them.

Conventions: u64 / usize values are modelled as Nat (no arithmetic in the
modelled code paths overflows or goes negative except where noted);
fallible code (Rust panics: `unwrap`, `assert!`, `todo!`) is modelled with
Option, `none` standing for a panic.
-/

namespace Zakros

/-! ## Log entries and metadata (zakros-raft/src/lib.rs) -/

/-- `EntryKind<C>` from zakros-raft/src/lib.rs, with the opaque command
payload `C` instantiated to `Nat` and the socket address of `AddNode`
abstracted to a `Nat`. -/
inductive EntryKind where
  | noOp
  | command (c : Nat)
  | addNode (nodeId : Nat) (addr : Nat)
  | removeNode (nodeId : Nat)
deriving DecidableEq, Repr

/-- `Entry<C>` from zakros-raft/src/lib.rs: a log entry. -/
structure Entry where
  kind : EntryKind
  term : Nat
deriving DecidableEq, Repr

/-- `Metadata` from zakros-raft/src/lib.rs: the persistent
(current_term, voted_for) record.  `NodeId` is a `u64`, modelled as `Nat`. -/
structure Metadata where
  currentTerm : Nat
  votedFor : Option Nat
deriving DecidableEq, Repr

/-! ## Memory storage (zakros-raft/src/storage/memory.rs)

`MemoryStorage` is a `Vec<Entry<C>>`, modelled as `List Entry`.  Indices
are 1-based in the `Storage` contract and converted with `- 1` inside. -/

/-- `MemoryStorage::num_entries`: `self.0.len()`. -/
def memNumEntries (log : List Entry) : Nat :=
  log.length

/-- `MemoryStorage::entry(index)`: `None` for `index == 0`, otherwise
`self.0.get(index - 1).cloned()`. -/
def memEntry (log : List Entry) (index : Nat) : Option Entry :=
  if index > 0 then log.get? (index - 1) else none

/-- `MemoryStorage::entries(start)` (asserts `start > 0`):
the suffix `self.0[start - 1..]`, empty when past the end. -/
def memEntries (log : List Entry) (start : Nat) : List Entry :=
  log.drop (start - 1)

/-- `MemoryStorage::append_entries`: `self.0.extend_from_slice(entries)`. -/
def memAppendEntries (log : List Entry) (entries : List Entry) : List Entry :=
  log ++ entries

/-- `MemoryStorage::truncate_entries(index)` (asserts `index > 0`):
`self.0.truncate(index - 1)`, keeping the first `index - 1` entries,
i.e. removing the entries with 1-based index `≥ index`. -/
def memTruncateEntries (log : List Entry) (index : Nat) : List Entry :=
  log.take (index - 1)

/-! ## Disk storage (zakros-raft/src/storage/disk.rs)

The `log` file is a concatenation of frames, each an 8-byte (`HEADER_SIZE`)
little-endian length header followed by that many bytes of bincode payload.
A frame is modelled as `(payload size, decoded entry)`; the bincode
`serialized_size` function is an abstract parameter `esize`.
`DiskStorage` keeps the file, the vector of byte offsets of each frame
start, and `current_offset`, the byte length of the file. -/

structure DiskStorage where
  /-- decoded content of the `log` file, in file order, with payload sizes -/
  fileFrames : List (Nat × Entry)
  /-- byte offset of each frame start, one per entry -/
  offsets : List Nat
  currentOffset : Nat
deriving DecidableEq, Repr

/-- A freshly created empty disk store (`DiskStorage::new` on an empty
directory: the scan finds no frames). -/
def emptyDisk : DiskStorage :=
  { fileFrames := [], offsets := [], currentOffset := 0 }

/-- `DiskStorage::num_entries`: `self.offsets.len()`. -/
def diskNumEntries (s : DiskStorage) : Nat :=
  s.offsets.length

/-- `DiskStorage::append_entries`: for each entry, write a frame at the
file end, push the starting offset, and advance `current_offset` by
`size + HEADER_SIZE`. -/
def diskAppendEntries (esize : Entry → Nat) (s : DiskStorage)
    (entries : List Entry) : DiskStorage :=
  entries.foldl
    (fun st e =>
      { fileFrames := st.fileFrames ++ [(esize e, e)]
        offsets := st.offsets ++ [st.currentOffset]
        currentOffset := st.currentOffset + esize e + 8 })
    s

/-- Effect of `file.set_len(len)` on the frame decomposition of the file:
whole frames that fit within the first `len` bytes survive; a frame cut
in the middle is destroyed (with the offsets maintained by the code,
`set_len` is always called on a frame boundary, so no partial frame
remains). -/
def cutFileAt : List (Nat × Entry) → Nat → List (Nat × Entry)
  | [], _ => []
  | f :: rest, len =>
    if f.1 + 8 ≤ len then f :: cutFileAt rest (len - (f.1 + 8)) else []

/-- `DiskStorage::truncate_entries(index)` (asserts `index > 0`):
looks up `self.offsets.get(index)` — note: *without* subtracting 1, unlike
`MemoryStorage` — returning unchanged if absent; otherwise sets the file
length to that offset and truncates the offsets vector to `index`
elements.  `current_offset` is not updated by the code. -/
def diskTruncateEntries (s : DiskStorage) (index : Nat) : DiskStorage :=
  match s.offsets.get? index with
  | none => s
  | some off =>
    { fileFrames := cutFileAt s.fileFrames off
      offsets := s.offsets.take index
      currentOffset := s.currentOffset }

/-- `DiskStorage::entry(index)`: `None` for index 0, else look up
`offsets[index - 1]` and decode the frame starting at that byte offset. -/
def readFrameAt : List (Nat × Entry) → Nat → Nat → Option Entry
  | [], _, _ => none
  | f :: rest, pos, target =>
    if pos = target then some f.2 else readFrameAt rest (pos + f.1 + 8) target

def diskEntry (s : DiskStorage) (index : Nat) : Option Entry :=
  if index > 0 then
    (s.offsets.get? (index - 1)).bind (readFrameAt s.fileFrames 0)
  else none

/-- Sample entries and a concrete size function for evaluating the disk
store. -/
def entryA : Entry := { kind := .noOp, term := 1 }
def entryB : Entry := { kind := .command 7, term := 1 }

def esizeOne : Entry → Nat := fun _ => 1

/-- A two-entry disk store built by appending `[entryA, entryB]` to a
fresh store. -/
def disk2 : DiskStorage := diskAppendEntries esizeOne emptyDisk [entryA, entryB]

/-- C1 supporting lemma (the memory store satisfies the contract):
for `1 ≤ i ≤ n`, `MemoryStorage::truncate_entries(i)` leaves `i - 1`
entries and every entry with index `< i` unchanged. -/
theorem memTruncate_correct (log : List Entry) (i : Nat)
    (h1 : 1 ≤ i) (hn : i ≤ memNumEntries log) :
    memNumEntries (memTruncateEntries log i) = i - 1 ∧
      ∀ j, 1 ≤ j → j < i →
        memEntry (memTruncateEntries log i) j = memEntry log j := by
  simp only [memNumEntries] at hn
  constructor
  · simp only [memNumEntries, memTruncateEntries, List.length_take]
    omega
  · intro j hj1 hji
    simp only [memEntry, memTruncateEntries]
    have hj : j > 0 := hj1
    simp only [hj, if_pos]
    rw [List.get?_take]
    omega

theorem memTruncate_correct_witness :
    1 ≤ 1 ∧ 1 ≤ memNumEntries [entryA, entryB] ∧
      (memNumEntries (memTruncateEntries [entryA, entryB] 1) = 0 ∧
        ∀ j, 1 ≤ j → j < 1 →
          memEntry (memTruncateEntries [entryA, entryB] 1) j =
            memEntry [entryA, entryB] j) := by
  refine ⟨by decide, by decide, ?_⟩
  exact memTruncate_correct [entryA, entryB] 1 (by decide) (by decide)

/-- C1: the claim requires `truncate_entries(i)` on *every* implementation
to leave `i - 1` entries.  The disk implementation indexes
`offsets.get(index)` without subtracting 1: on the two-entry store,
`truncate_entries(1)` leaves 1 entry (the memory store correctly leaves 0),
and `truncate_entries(2)` leaves both entries untouched.  The surviving
first entry shows the entry *at* the truncation index is kept on disk. -/
theorem c1_disk_truncate_entries_off_by_one :
    diskNumEntries disk2 = 2 ∧
      diskNumEntries (diskTruncateEntries disk2 1) = 1 ∧
      diskEntry (diskTruncateEntries disk2 1) 1 = some entryA ∧
      diskNumEntries (diskTruncateEntries disk2 2) = 2 ∧
      memNumEntries (memTruncateEntries [entryA, entryB] 1) = 0 := by
  decide

/-! ## split_args (zakros-redis/src/string.rs)

The shell-like tokenizer used by the RESP inline protocol.  Bytes are
modelled as `Nat`.  The outer loop first skips bytes from the set
`b" \n\r\t\x0b\x0c"` (`find_not_byteset`), then scans one token with a
three-state machine. -/

/-- `SplitArgsError` from string.rs. -/
inductive SplitArgsError where
  | unbalancedQuotes
deriving DecidableEq, Repr

/-- The local `State` enum inside `split_args`. -/
inductive QState where
  | normal
  | inDoubleQuotes
  | inSingleQuotes
deriving DecidableEq, Repr

/-- `is_space` from string.rs (C `isspace()`):
space, `\n`, `\r`, `\t`, `0xb`, `0xc`. -/
def isSpaceByte (c : Nat) : Bool :=
  c = 32 || c = 10 || c = 13 || c = 9 || c = 11 || c = 12

/-- `u8::is_ascii_hexdigit`. -/
def isHexDigitByte (c : Nat) : Bool :=
  (48 ≤ c && c ≤ 57) || (97 ≤ c && c ≤ 102) || (65 ≤ c && c ≤ 70)

/-- `hex_digit_to_int` from string.rs (callers guarantee a hex digit;
the `unreachable!` arm is mapped to 0). -/
def hexDigitToInt (c : Nat) : Nat :=
  if 48 ≤ c ∧ c ≤ 57 then c - 48
  else if 97 ≤ c ∧ c ≤ 102 then c - 97 + 10
  else if 65 ≤ c ∧ c ≤ 70 then c - 65 + 10
  else 0

/-- The escape table of the `[b'\\', ch, ..]` arm in double quotes:
`\n`, `\r`, `\t`, `\b`, `\a`, any other char stands for itself. -/
def escByte (c : Nat) : Nat :=
  if c = 110 then 10
  else if c = 114 then 13
  else if c = 116 then 9
  else if c = 98 then 8
  else if c = 97 then 7
  else c

/-- The inner `loop` of `split_args`: scan one token starting in state
`st` with accumulated bytes `cur`, returning the token and the remaining
line.  Each arm mirrors one `match` arm of the Rust loop; arms that do
not `break` or `return` fall through to the shared `line = &line[1..]`
at the bottom of the loop, which is folded into the patterns here. -/
def tokenLoop : QState → List Nat → List Nat →
    Except SplitArgsError (List Nat × List Nat)
  | .normal, cur, [] => .ok (cur, [])
  | .normal, cur, c :: rest =>
    if c = 32 || c = 10 || c = 13 || c = 9 then .ok (cur, rest)
    else if c = 34 then tokenLoop .inDoubleQuotes cur rest
    else if c = 39 then tokenLoop .inSingleQuotes cur rest
    else tokenLoop .normal (cur ++ [c]) rest
  | .inDoubleQuotes, cur, 92 :: 120 :: a :: b :: rest =>
    if isHexDigitByte a && isHexDigitByte b then
      tokenLoop .inDoubleQuotes (cur ++ [hexDigitToInt a * 16 + hexDigitToInt b]) rest
    else
      tokenLoop .inDoubleQuotes (cur ++ [escByte 120]) (a :: b :: rest)
  | .inDoubleQuotes, cur, 92 :: c :: rest =>
    tokenLoop .inDoubleQuotes (cur ++ [escByte c]) rest
  | .inDoubleQuotes, cur, 34 :: c :: rest =>
    if isSpaceByte c then .ok (cur, c :: rest)
    else .error .unbalancedQuotes
  | .inDoubleQuotes, cur, [34] => .ok (cur, [])
  | .inDoubleQuotes, _, [] => .error .unbalancedQuotes
  | .inDoubleQuotes, cur, c :: rest =>
    tokenLoop .inDoubleQuotes (cur ++ [c]) rest
  | .inSingleQuotes, cur, 92 :: 39 :: rest =>
    tokenLoop .inSingleQuotes (cur ++ [39]) rest
  | .inSingleQuotes, cur, 39 :: c :: rest =>
    if isSpaceByte c then .ok (cur, c :: rest)
    else .error .unbalancedQuotes
  | .inSingleQuotes, cur, [39] => .ok (cur, [])
  | .inSingleQuotes, _, [] => .error .unbalancedQuotes
  | .inSingleQuotes, cur, c :: rest =>
    tokenLoop .inSingleQuotes (cur ++ [c]) rest

/-- The token scanner never returns more than it was given. -/
theorem tokenLoop_length_le (st : QState) (cur l t r : List Nat)
    (h : tokenLoop st cur l = .ok (t, r)) : r.length ≤ l.length := by
  induction st, cur, l using tokenLoop.induct <;>
    simp only [tokenLoop] at h <;>
    (try split at h) <;>
    (try simp_all) <;>
    omega

/-- On a nonempty line the token scan strictly consumes input. -/
theorem tokenLoop_length_lt (cur l t r : List Nat) (hl : l ≠ [])
    (h : tokenLoop .normal cur l = .ok (t, r)) : r.length < l.length := by
  match l with
  | [] => exact absurd rfl hl
  | c :: rest =>
    simp only [tokenLoop] at h
    split at h
    · simp only [Except.ok.injEq, Prod.mk.injEq] at h
      obtain ⟨-, rfl⟩ := h
      simp
    · split at h
      · have := tokenLoop_length_le _ _ _ _ _ h
        simpa using Nat.lt_succ_of_le this
      · split at h
        · have := tokenLoop_length_le _ _ _ _ _ h
          simpa using Nat.lt_succ_of_le this
        · have := tokenLoop_length_le _ _ _ _ _ h
          simpa using Nat.lt_succ_of_le this

theorem dropWhile_len_le (p : Nat → Bool) (l : List Nat) :
    (l.dropWhile p).length ≤ l.length := by
  induction l with
  | nil => simp
  | cons a l ih =>
    by_cases hp : p a
    · simpa [List.dropWhile, hp] using Nat.le_succ_of_le ih
    · simp [List.dropWhile, hp]

/-- The set passed to `find_not_byteset`: `b" \n\r\t\x0b\x0c"`. -/
def isSep6 (c : Nat) : Bool :=
  c = 32 || c = 10 || c = 13 || c = 9 || c = 11 || c = 12

/-- The outer `loop` of `split_args`: skip separator bytes
(`find_not_byteset` + slice), stop when nothing is left, otherwise scan
one token and continue. -/
def splitArgsLoop (tokens : List (List Nat)) (line : List Nat) :
    Except SplitArgsError (List (List Nat)) :=
  let rest := line.dropWhile isSep6
  if hr : rest = [] then .ok tokens
  else
    match h2 : tokenLoop .normal [] rest with
    | .error e => .error e
    | .ok (tok, rest2) => splitArgsLoop (tokens ++ [tok]) rest2
termination_by line.length
decreasing_by
  calc rest2.length < rest.length := tokenLoop_length_lt _ _ _ _ hr h2
    _ ≤ line.length := dropWhile_len_le _ _

/-- `split_args` from zakros-redis/src/string.rs. -/
def splitArgs (line : List Nat) : Except SplitArgsError (List (List Nat)) :=
  splitArgsLoop [] line

/-- C8 counterexample: the claim says VT (0x0b) ends an unquoted token, so
`"a\x0bb"` would split into two tokens; the code only breaks a token on
space, LF, CR and tab, and `split_args "a\x0bb"` is the single token
`"a\x0bb"`. -/
theorem c8_vt_does_not_split :
    splitArgs [97, 11, 98] = .ok [[97, 11, 98]] ∧
      ([[97, 11, 98]] : List (List Nat)) ≠ [[97], [98]] := by
  constructor
  · simp [splitArgs, splitArgsLoop, tokenLoop, isSep6]
  · decide

/-- C8 (amended): `split_args` skips leading bytes from
`{space, tab, CR, LF, VT, FF}` before a token, but an unquoted token ends
only at the first of `{space, tab, CR, LF}`; VT (0x0b) and FF (0x0c) do
not end a token and are kept inside it, so `"a\x0bb"` is one token. -/
theorem c8_split_args_separators (sep : Nat) :
    (sep ∈ [32, 9, 10, 13] → splitArgs [97, sep, 98] = .ok [[97], [98]]) ∧
      (sep ∈ [11, 12] → splitArgs [97, sep, 98] = .ok [[97, sep, 98]]) ∧
      (sep ∈ [32, 9, 10, 13, 11, 12] → splitArgs [sep, 97] = .ok [[97]]) := by
  refine ⟨?_, ?_, ?_⟩ <;> intro h <;> fin_cases h <;>
    simp [splitArgs, splitArgsLoop, tokenLoop, isSep6]

theorem c8_split_args_separators_witness :
    splitArgs [97, 32, 98] = .ok [[97], [98]] ∧
      splitArgs [97, 11, 98] = .ok [[97, 11, 98]] ∧
      splitArgs [12, 97] = .ok [[97]] :=
  ⟨(c8_split_args_separators 32).1 (by decide),
   (c8_split_args_separators 11).2.1 (by decide),
   (c8_split_args_separators 12).2.2 (by decide)⟩

/-! ## RESP codec (zakros-redis/src/resp.rs)

`Value` and `RedisResult = Result<Value, Error>`; the error side is
modelled by its rendered byte string (`write!("-{}\r\n", err)`). -/

mutual
inductive RValue where
  | null
  | simpleString (s : List Nat)
  | bulkString (s : List Nat)
  | integer (i : Int)
  | array (xs : List RResult)

inductive RResult where
  | okv (v : RValue)
  | errv (msg : List Nat)
end

/-- Rust `{}` decimal formatting of an unsigned integer, digit bytes
most-significant first.  The fuel argument only drives termination; it is
always sufficient (`n + 1` initial fuel, `n / 10` strictly decreases). -/
def natToDecAux : Nat → Nat → List Nat
  | 0, _ => []
  | fuel + 1, n =>
    if n < 10 then [n + 48] else natToDecAux fuel (n / 10) ++ [n % 10 + 48]

def natToDec (n : Nat) : List Nat :=
  natToDecAux (n + 1) n

/-- Rust `{}` formatting of a signed integer. -/
def intToDec (i : Int) : List Nat :=
  if i < 0 then 45 :: natToDec i.natAbs else natToDec i.toNat

/- The RESP encoder (`encode` in resp.rs): `$-1\r\n` for Null,
`+s\r\n`, `$L\r\n<bytes>\r\n`, `:n\r\n`, `*L\r\n<children>`, and
`-<message>\r\n` for errors. -/
mutual
def encodeResult : RResult → List Nat
  | .okv v => encodeValue v
  | .errv msg => 45 :: (msg ++ [13, 10])

def encodeValue : RValue → List Nat
  | .null => [36, 45, 49, 13, 10]
  | .simpleString s => 43 :: (s ++ [13, 10])
  | .bulkString s => 36 :: (natToDec s.length ++ [13, 10] ++ s ++ [13, 10])
  | .integer i => 58 :: (intToDec i ++ [13, 10])
  | .array xs => 42 :: (natToDec xs.length ++ [13, 10] ++ encodeList xs)

def encodeList : List RResult → List Nat
  | [] => []
  | x :: xs => encodeResult x ++ encodeList xs
end

/-- `ProtocolError` from resp.rs. -/
inductive ProtocolError where
  | invalidMultibulkLength
  | invalidBulkLength
  | unexpectedByte (expected : Nat) (got : Nat)
  | unbalancedQuotes
deriving DecidableEq, Repr

/-- Result of one call to the decoder on a buffer: a protocol error, a
"need more bytes" indication (`Ok(None)`), or a decoded command with the
unconsumed remainder of the buffer. -/
inductive MBOut where
  | protoErr (e : ProtocolError)
  | needMore
  | done (args : List (List Nat)) (rest : List Nat)
deriving DecidableEq, Repr

/-- `bstr` `find_byte`: index of the first occurrence of `b`. -/
def findByte : List Nat → Nat → Option Nat
  | [], _ => none
  | c :: rest, b => if c = b then some 0 else (findByte rest b).map (· + 1)

def isDigitByte (c : Nat) : Bool :=
  48 ≤ c && c ≤ 57

/-- Accumulate the numeric value of a digit string. -/
def digitsVal (l : List Nat) (acc : Nat) : Nat :=
  l.foldl (fun a c => a * 10 + (c - 48)) acc

/-- Rust `usize::from_str` (via `parse_bytes`): optional `+` sign, at
least one digit, digits only.  A byte buffer's length always fits in
`usize`, so the `usize` overflow failure is unreachable here and is not
modelled. -/
def parseNatBytes (s : List Nat) : Option Nat :=
  match s with
  | [] => none
  | c :: rest =>
    if c = 43 then
      if rest ≠ [] ∧ rest.all isDigitByte then some (digitsVal rest 0) else none
    else if s.all isDigitByte then some (digitsVal s 0) else none

/-- Rust `i32::from_str`: optional sign, digits, and a range check
(`-2147483648 ..= 2147483647`); out-of-range input fails to parse. -/
def parseI32Bytes (s : List Nat) : Option Int :=
  match s with
  | [] => none
  | c :: rest =>
    if c = 45 then
      if rest ≠ [] ∧ rest.all isDigitByte ∧ digitsVal rest 0 ≤ 2147483648 then
        some (-(digitsVal rest 0 : Int))
      else none
    else if c = 43 then
      if rest ≠ [] ∧ rest.all isDigitByte ∧ digitsVal rest 0 ≤ 2147483647 then
        some (digitsVal rest 0)
      else none
    else
      if s.all isDigitByte ∧ digitsVal s 0 ≤ 2147483647 then
        some (digitsVal s 0)
      else none

/-- The bulk-string loop of `RespCodec::decode_multibulk`
(`for _ in self.array.len()..array_len`): parse `$L\r\n`, take `L` bytes,
skip the trailing 2 bytes, `array_len - array.len()` times. -/
def decodeBulks : Nat → List (List Nat) → List Nat → MBOut
  | 0, acc, src => .done acc src
  | k + 1, acc, src =>
    match findByte src 13 with
    | none => .needMore
    | some e =>
      if e + 1 < src.length then
        match src.take e with
        | 36 :: lenBytes =>
          match parseNatBytes lenBytes with
          | none => .protoErr .invalidBulkLength
          | some len =>
            if e + 2 + len + 2 > src.length then .needMore
            else
              let afterHeader := src.drop (e + 2)
              decodeBulks k (acc ++ [afterHeader.take len])
                ((afterHeader.drop len).drop 2)
        | _ => .protoErr (.unexpectedByte 36 (src.headD 0))
      else .needMore

/-- `RespCodec::decode_multibulk` called with fresh state
(`array_len = None`, `array = []`) on a buffer: parse the `*N\r\n` header
(`N` as `i32`; an empty header line means 0; `N ≤ 0` yields the empty
command), then `N` bulk strings. -/
def decodeMultibulk (src : List Nat) : MBOut :=
  match findByte src 13 with
  | none => .needMore
  | some e =>
    if e + 1 < src.length then
      match src.take e with
      | [] => .done [] (src.drop (e + 2))
      | 42 :: lenBytes =>
        match parseI32Bytes lenBytes with
        | none => .protoErr .invalidMultibulkLength
        | some len =>
          if len ≤ 0 then .done [] (src.drop (e + 2))
          else decodeBulks len.toNat [] (src.drop (e + 2))
      | _ => .protoErr .invalidMultibulkLength
    else .needMore

/-! Decimal printing and parsing round-trip lemmas. -/

theorem natToDecAux_all_digits (fuel n : Nat) :
    (natToDecAux fuel n).all isDigitByte = true := by
  induction fuel generalizing n with
  | zero => simp [natToDecAux]
  | succ fuel ih =>
    simp only [natToDecAux]
    split
    · simp only [List.all_cons, List.all_nil, Bool.and_true, isDigitByte]
      simp only [Bool.and_eq_true, decide_eq_true_eq]
      omega
    · simp only [List.all_append, ih, Bool.true_and, List.all_cons,
        List.all_nil, Bool.and_true, isDigitByte]
      simp only [Bool.and_eq_true, decide_eq_true_eq]
      have := Nat.mod_lt n (y := 10) (by omega)
      omega

theorem digitsVal_append (l1 l2 : List Nat) (acc : Nat) :
    digitsVal (l1 ++ l2) acc = digitsVal l2 (digitsVal l1 acc) := by
  simp [digitsVal, List.foldl_append]

theorem digitsVal_natToDecAux (fuel n acc : Nat) (h : n < fuel) :
    digitsVal (natToDecAux fuel n) acc =
      acc * 10 ^ (natToDecAux fuel n).length + n := by
  induction fuel generalizing n acc with
  | zero => omega
  | succ fuel ih =>
    simp only [natToDecAux]
    split
    · simp only [digitsVal, List.foldl_cons, List.foldl_nil, List.length_cons,
        List.length_nil]
      simp <;> omega
    · rw [digitsVal_append]
      have hlt : n / 10 < fuel := by omega
      rw [ih _ _ hlt]
      simp only [digitsVal, List.foldl_cons, List.foldl_nil, List.length_append,
        List.length_cons, List.length_nil]
      rw [pow_succ]
      have h10 : n % 10 + 48 - 48 = n % 10 := by omega
      rw [h10]
      have := Nat.div_add_mod n 10
      ring_nf
      omega

theorem natToDec_ne_nil (n : Nat) : natToDec n ≠ [] := by
  rw [natToDec]
  simp only [natToDecAux]
  split <;> simp

theorem natToDec_all_digits (n : Nat) : (natToDec n).all isDigitByte = true :=
  natToDecAux_all_digits _ _

theorem digitsVal_natToDec (n : Nat) : digitsVal (natToDec n) 0 = n := by
  rw [natToDec, digitsVal_natToDecAux _ _ _ (Nat.lt_succ_self n)]
  simp

theorem natToDec_head_digit (n : Nat) :
    ∀ c rest, natToDec n = c :: rest → 48 ≤ c ∧ c ≤ 57 := by
  intro c rest hd
  have h := natToDec_all_digits n
  rw [hd] at h
  simp only [List.all_cons, Bool.and_eq_true, isDigitByte, Bool.and_eq_true,
    decide_eq_true_eq] at h
  exact h.1

theorem parseNatBytes_natToDec (n : Nat) : parseNatBytes (natToDec n) = some n := by
  match hd : natToDec n with
  | [] => exact absurd hd (natToDec_ne_nil n)
  | c :: rest =>
    obtain ⟨h48, h57⟩ := natToDec_head_digit n c rest hd
    have hall := natToDec_all_digits n
    have hval := digitsVal_natToDec n
    rw [hd] at hall hval
    simp only [parseNatBytes]
    rw [if_neg (by omega)]
    rw [if_pos hall]
    rw [hval]

theorem parseI32Bytes_natToDec (n : Nat) (h : n ≤ 2147483647) :
    parseI32Bytes (natToDec n) = some (n : Int) := by
  match hd : natToDec n with
  | [] => exact absurd hd (natToDec_ne_nil n)
  | c :: rest =>
    obtain ⟨h48, h57⟩ := natToDec_head_digit n c rest hd
    have hall := natToDec_all_digits n
    have hval := digitsVal_natToDec n
    rw [hd] at hall hval
    simp only [parseI32Bytes]
    rw [if_neg (by omega), if_neg (by omega)]
    rw [if_pos ⟨hall, by omega⟩, hval]

theorem parseI32Bytes_natToDec_overflow (n : Nat) (h : n > 2147483647) :
    parseI32Bytes (natToDec n) = none := by
  match hd : natToDec n with
  | [] => exact absurd hd (natToDec_ne_nil n)
  | c :: rest =>
    obtain ⟨h48, h57⟩ := natToDec_head_digit n c rest hd
    have hall := natToDec_all_digits n
    have hval := digitsVal_natToDec n
    rw [hd] at hall hval
    simp only [parseI32Bytes]
    rw [if_neg (by omega), if_neg (by omega)]
    rw [if_neg (by omega)]

theorem natToDec_no_cr (n : Nat) : ∀ c ∈ natToDec n, ¬ c = 13 := by
  intro c hc
  have h := natToDec_all_digits n
  rw [List.all_eq_true] at h
  have := h c hc
  simp only [isDigitByte, Bool.and_eq_true, decide_eq_true_eq] at this
  omega

theorem findByte_append_cr (l1 l2 : List Nat) (h : ∀ c ∈ l1, ¬ c = 13) :
    findByte (l1 ++ 13 :: l2) 13 = some l1.length := by
  induction l1 with
  | nil => simp [findByte]
  | cons a l ih =>
    simp only [List.cons_append, findByte, List.append_eq]
    rw [if_neg (h a (by simp))]
    rw [ih (fun c hc => h c (by simp [hc]))]
    simp

theorem take_append_len (A B : List Nat) : (A ++ B).take A.length = A := by
  induction A with
  | nil => simp
  | cons a A ih => simp [ih]

theorem drop_append_len (A B : List Nat) : (A ++ B).drop A.length = B := by
  induction A with
  | nil => simp
  | cons a A ih => simp [ih]

theorem take_append_len' (A B : List Nat) (k : Nat) (hk : k = A.length) :
    (A ++ B).take k = A := by
  subst hk
  exact take_append_len A B

theorem drop_append_len_add (A B : List Nat) (k n : Nat) (hk : k = A.length + n) :
    (A ++ B).drop k = B.drop n := by
  subst hk
  induction A with
  | nil => simp
  | cons a A ih => simpa [Nat.succ_add] using ih

theorem len_header_lt (A B : List Nat) :
    A.length + 1 < (A ++ 13 :: 10 :: B).length := by
  simp only [List.length_append, List.length_cons]
  omega

/-- The bulk loop of the decoder inverts the encoder on a list of Ok
bulk strings, consuming exactly their encoding. -/
theorem decodeBulks_encodeList (strs : List (List Nat)) (acc : List (List Nat))
    (tail : List Nat) :
    decodeBulks strs.length acc
        (encodeList (strs.map fun s => RResult.okv (RValue.bulkString s)) ++ tail) =
      .done (acc ++ strs) tail := by
  induction strs generalizing acc with
  | nil => simp [encodeList, decodeBulks]
  | cons s rest ih =>
    have hA : ∀ c ∈ 36 :: natToDec s.length, ¬ c = 13 := by
      intro c hc
      rcases List.mem_cons.mp hc with h1 | h2
      · omega
      · exact natToDec_no_cr _ c h2
    have hsrc :
        encodeList ((s :: rest).map fun t => RResult.okv (RValue.bulkString t)) ++ tail =
          (36 :: natToDec s.length) ++ 13 :: 10 ::
            (s ++ 13 :: 10 ::
              (encodeList (rest.map fun t => RResult.okv (RValue.bulkString t)) ++ tail)) := by
      simp [encodeList, encodeResult, encodeValue]
    rw [List.length_cons, hsrc]
    rw [show (rest.length + 1) = Nat.succ rest.length from rfl]
    simp only [decodeBulks]
    rw [findByte_append_cr _ _ hA]
    simp only []
    rw [if_pos (by simp)]
    rw [take_append_len' (36 :: natToDec s.length) _ _ rfl]
    simp only [parseNatBytes_natToDec]
    rw [if_neg (by
      simp only [List.length_append, List.length_cons]
      omega)]
    rw [drop_append_len_add (36 :: natToDec s.length) _ _ 2 rfl]
    simp only [List.drop_succ_cons, List.drop_zero]
    rw [take_append_len' s _ _ rfl]
    rw [drop_append_len_add s _ _ 0 (Nat.add_zero _).symm]
    simp only [List.drop_zero, List.drop_succ_cons]
    rw [ih (acc ++ [s])]
    simp

/-- C9 (amended): RESP-encoding a request-shaped value — an Array whose
elements are all `Ok(BulkString)` — and running the multibulk decoder on
the produced bytes yields the original byte strings and consumes the
whole encoding, *provided* the array has at most `i32::MAX = 2147483647`
elements (the `*N` header is parsed as an `i32`). -/
theorem c9_encode_decode_roundtrip (strs : List (List Nat))
    (h : strs.length ≤ 2147483647) :
    decodeMultibulk
        (encodeResult (.okv (.array (strs.map fun s => .okv (.bulkString s))))) =
      .done strs [] := by
  cases strs with
  | nil =>
    simp [encodeResult, encodeValue, encodeList, decodeMultibulk, findByte,
      natToDec, natToDecAux, parseI32Bytes, isDigitByte, digitsVal]
  | cons s rest =>
    have hA : ∀ c ∈ 42 :: natToDec (s :: rest).length, ¬ c = 13 := by
      intro c hc
      rcases List.mem_cons.mp hc with h1 | h2
      · omega
      · exact natToDec_no_cr _ c h2
    have hsrc :
        encodeResult (.okv (.array ((s :: rest).map fun t => .okv (.bulkString t)))) =
          (42 :: natToDec (s :: rest).length) ++ 13 :: 10 ::
            (encodeList ((s :: rest).map fun t => RResult.okv (RValue.bulkString t)) ++ []) := by
      simp [encodeResult, encodeValue]
    rw [hsrc]
    simp only [decodeMultibulk]
    rw [findByte_append_cr _ _ hA]
    simp only []
    rw [if_pos (by simp)]
    rw [take_append_len' (42 :: natToDec (s :: rest).length) _ _ rfl]
    simp only [parseI32Bytes_natToDec (s :: rest).length (by simpa using h)]
    rw [if_neg (by simp)]
    simp only [Int.toNat_natCast]
    rw [drop_append_len_add (42 :: natToDec (s :: rest).length) _ _ 2 rfl]
    simp only [List.drop_succ_cons, List.drop_zero]
    rw [decodeBulks_encodeList (s :: rest) [] []]
    simp

theorem c9_encode_decode_roundtrip_witness :
    ([[97, 98], []] : List (List Nat)).length ≤ 2147483647 ∧
      decodeMultibulk
          (encodeResult (.okv (.array ([[97, 98], []].map fun s => .okv (.bulkString s))))) =
        .done [[97, 98], []] [] :=
  ⟨by decide, c9_encode_decode_roundtrip [[97, 98], []] (by decide)⟩

/-- An Array of `2^31` empty bulk strings: request-shaped, but its length
header `*2147483648` does not parse as an `i32`. -/
def bigArray : RResult :=
  .okv (.array (List.replicate 2147483648 (.okv (.bulkString []))))

/-- C9 counterexample: the claim quantifies over *every* request-shaped
value, but encoding `bigArray` and decoding the result fails with
"invalid multibulk length" instead of returning the original 2^31
strings: the decoder parses the `*N` header as an `i32` and `2147483648`
overflows. -/
theorem c9_big_array_fails :
    decodeMultibulk (encodeResult bigArray) = .protoErr .invalidMultibulkLength ∧
      MBOut.protoErr .invalidMultibulkLength ≠
        MBOut.done (List.replicate 2147483648 []) [] := by
  constructor
  · have hA : ∀ c ∈ 42 :: natToDec 2147483648, ¬ c = 13 := by
      intro c hc
      rcases List.mem_cons.mp hc with h1 | h2
      · omega
      · exact natToDec_no_cr _ c h2
    have hsrc :
        encodeResult bigArray =
          (42 :: natToDec 2147483648) ++ 13 :: 10 ::
            encodeList (List.replicate 2147483648 (.okv (.bulkString []))) := by
      simp only [bigArray, encodeResult, encodeValue, List.length_replicate,
        List.cons_append, List.append_assoc, List.nil_append]
    rw [hsrc]
    simp only [decodeMultibulk]
    rw [findByte_append_cr _ _ hA]
    simp only []
    rw [if_pos (len_header_lt (42 :: natToDec 2147483648) _)]
    rw [take_append_len' (42 :: natToDec 2147483648) _ _ rfl]
    simp only [parseI32Bytes_natToDec_overflow 2147483648 (by omega)]
  · intro h
    exact MBOut.noConfusion h

/-! ## Session transaction dispatch (zakros/src/connection.rs)

`parse_and_process_command` (lines 98–177): parse the command name,
check arity, then dispatch on the command class and the per-connection
transaction state.  The same transaction logic also appears in
zakros-redis/src/session.rs (`RedisSession::handle_command`).
Command payloads (name + args) are abstracted to a `Nat`. -/

/-- `TransactionCommand`. -/
inductive TxnCmd where
  | multi
  | exec
  | discard
deriving DecidableEq, Repr

/-- The classification of a parsed `RedisCommand` as matched by
`parse_and_process_command`. -/
inductive CmdClass where
  | write
  | readCmd
  | stateless
  | system
  | txn (t : TxnCmd)
deriving DecidableEq, Repr

/-- The `Transaction` enum in connection.rs. -/
inductive Txn where
  | inactive
  | queuedQ (q : List Nat)
  | error
deriving DecidableEq, Repr

/-- What `parse_and_process_command` is given: `RedisCommand::try_from`
may fail (unknown command), the arity check may fail, or a classified
command with its payload is processed. -/
inductive SessionInput where
  | parseError
  | arityError
  | cmd (c : CmdClass) (payload : Nat)
deriving DecidableEq, Repr

/-- The error kinds a command can be rejected with on these paths. -/
inductive SessionErr where
  | unknownCommand
  | wrongArity
  | nestedMulti
  | execWithoutMulti
  | discardWithoutMulti
  | execAborted
  | notAllowedInTxn
deriving DecidableEq, Repr

/-- The externally visible outcome of `parse_and_process_command`:
an error reply, `+OK`, `+QUEUED`, a transaction batch submitted to Raft
(`self.exec(queue)`), or a single-command dispatch (`call_single`). -/
inductive SessionEffect where
  | errReply (e : SessionErr)
  | okReply
  | queuedReply
  | execDispatch (q : List Nat)
  | singleDispatch (c : CmdClass) (payload : Nat)
deriving DecidableEq, Repr

/-- `parse_and_process_command` as a function of the transaction state
and the (pre-classified) input, returning the visible effect and the new
transaction state. -/
def processCommand (txn : Txn) (inp : SessionInput) : SessionEffect × Txn :=
  match inp with
  | .parseError =>
    ((.errReply .unknownCommand),
      match txn with
      | .queuedQ _ => .error
      | t => t)
  | .arityError =>
    ((.errReply .wrongArity),
      match txn with
      | .queuedQ _ => .error
      | t => t)
  | .cmd c payload =>
    match c with
    | .txn .multi =>
      match txn with
      | .inactive => (.okReply, .queuedQ [])
      | t => (.errReply .nestedMulti, t)
    | .txn .exec =>
      match txn with
      | .inactive => (.errReply .execWithoutMulti, .inactive)
      | .queuedQ q => (.execDispatch q, .inactive)
      | .error => (.errReply .execAborted, .inactive)
    | .txn .discard =>
      match txn with
      | .inactive => (.errReply .discardWithoutMulti, .inactive)
      | _ => (.okReply, .inactive)
    | .system =>
      match txn with
      | .inactive => (.singleDispatch .system payload, .inactive)
      | _ => (.errReply .notAllowedInTxn, .error)
    | _ =>
      match txn with
      | .inactive => (.singleDispatch c payload, .inactive)
      | .queuedQ q => (.queuedReply, .queuedQ (q ++ [payload]))
      | .error => (.queuedReply, .error)

/-- Whether an effect is an error reply. -/
def SessionEffect.isErrReply : SessionEffect → Bool
  | .errReply _ => true
  | _ => false

/-- C7 counterexample: in the `Error` transaction state, a queueable
command (here a Write with correct arity) is *not* rejected: the session
replies `+QUEUED` (a success reply), though the state does stay `Error`.
The claim says every command other than EXEC and DISCARD is rejected
with an error reply. -/
theorem c7_error_state_queueable_not_rejected :
    processCommand .error (.cmd .write 5) = (.queuedReply, .error) ∧
      (processCommand .error (.cmd .write 5)).1.isErrReply = false := by
  exact ⟨rfl, rfl⟩

/-- C7 (amended): when the transaction state is `Error`, every command
other than EXEC and DISCARD leaves the state `Error`; MULTI, System
commands, unknown commands and arity failures are rejected with an error
reply, while queueable commands (Write/Read/Stateless) are answered with
`+QUEUED` and are not queued anywhere.  (EXEC replies EXECABORT and
DISCARD replies OK, both resetting to `Inactive`.) -/
theorem c7_error_state_behavior :
    (processCommand .error .parseError = (.errReply .unknownCommand, .error)) ∧
      (processCommand .error .arityError = (.errReply .wrongArity, .error)) ∧
      (∀ p, processCommand .error (.cmd (.txn .multi) p) =
        (.errReply .nestedMulti, .error)) ∧
      (∀ p, processCommand .error (.cmd .system p) =
        (.errReply .notAllowedInTxn, .error)) ∧
      (∀ p, processCommand .error (.cmd .write p) = (.queuedReply, .error)) ∧
      (∀ p, processCommand .error (.cmd .readCmd p) = (.queuedReply, .error)) ∧
      (∀ p, processCommand .error (.cmd .stateless p) = (.queuedReply, .error)) ∧
      (∀ p, processCommand .error (.cmd (.txn .exec) p) =
        (.errReply .execAborted, .inactive)) ∧
      (∀ p, processCommand .error (.cmd (.txn .discard) p) =
        (.okReply, .inactive)) := by
  refine ⟨rfl, rfl, ?_, ?_, ?_, ?_, ?_, ?_, ?_⟩ <;> intro p <;> rfl

/-! ## Raft core (zakros-raft/src/server.rs)

The `Server` task is modelled as pure state-transition functions over
`NodeState`.  The storage is the memory storage (`MemoryStorage`,
a `List Entry`); timers (`reset_election_timer`, deadlines) are not
modelled — timer *events* appear as nondeterministic steps of the
cluster-level relation below.  `persist_metadata` calls are recorded in
`metadataHistory` (most recent last).  `oneshot` reply slots of queued
requests are modelled by appending `(request, result)` pairs to
completion lists; an immediate rejection of a non-queued client request
does not change the state and is not recorded. -/

/-- `Node` from zakros-raft/src/lib.rs: volatile per-peer leader state,
with its `Default`. -/
structure PeerState where
  nextIndex : Nat := 1
  matchIndex : Nat := 0
  matchMessageIndex : Nat := 0
  votedForMe : Bool := false
deriving DecidableEq, Repr

/-- `State` from zakros-raft/src/lib.rs. -/
inductive RaftState where
  | follower
  | candidate
  | leader
deriving DecidableEq, Repr

/-- The value sent into a pending request's reply slot:
`Ok(output)` or `Err(RaftError::NotLeader { leader_id })`. -/
inductive SendResult where
  | ok
  | notLeader (leaderId : Option Nat)
deriving DecidableEq, Repr

/-- `WriteRequest` (the reply slot is implicit). -/
structure WriteReq where
  index : Nat
deriving DecidableEq, Repr

/-- `ReadRequest`. -/
structure ReadReq where
  index : Nat
  messageIndex : Nat
deriving DecidableEq, Repr

/-- `AppendEntries<C>` from zakros-raft/src/rpc.rs. -/
structure AppendEntriesReq where
  term : Nat
  leaderId : Nat
  prevLogIndex : Nat
  prevLogTerm : Nat
  entries : List Entry
  leaderCommit : Nat
  messageIndex : Nat
deriving DecidableEq, Repr

/-- `AppendEntriesResponse` from rpc.rs. -/
structure AppendEntriesResp where
  term : Nat
  success : Bool
  messageIndex : Nat
  currentIndex : Nat
deriving DecidableEq, Repr

/-- `RequestVote` from rpc.rs. -/
structure RequestVoteReq where
  term : Nat
  candidateId : Nat
  lastLogIndex : Nat
  lastLogTerm : Nat
deriving DecidableEq, Repr

/-- `RequestVoteResponse` from rpc.rs. -/
structure RequestVoteResp where
  term : Nat
  voteGranted : Bool
deriving DecidableEq, Repr

/-- The state owned by the `Server` task (server.rs).  `peers` is the
`nodes: BTreeMap<NodeId, Node>` in ascending key order. -/
structure NodeState where
  nodeId : Nat
  currentTerm : Nat
  votedFor : Option Nat
  commitIndex : Nat
  lastAppliedIndex : Nat
  lastAppliedTerm : Nat
  lastMessageIndex : Nat
  peers : List (Nat × PeerState)
  state : RaftState
  leaderId : Option Nat
  log : List Entry
  pendingWrites : List WriteReq
  pendingReads : List ReadReq
  metadataHistory : List Metadata
  writeCompletions : List (WriteReq × SendResult)
  readCompletions : List (ReadReq × SendResult)
deriving DecidableEq, Repr

def lookupPeer (peers : List (Nat × PeerState)) (id : Nat) : Option PeerState :=
  (peers.find? (fun p => p.1 = id)).map (·.2)

def updatePeer (peers : List (Nat × PeerState)) (id : Nat)
    (f : PeerState → PeerState) : List (Nat × PeerState) :=
  peers.map (fun p => if p.1 = id then (p.1, f p.2) else p)

/-- `StorageExt::current_index`. -/
def currentIndexOf (s : NodeState) : Nat :=
  s.log.length

/-- `StorageExt::last_term`: term of the last entry, 0 when empty. -/
def lastTerm (log : List Entry) : Nat :=
  if log.length > 0 then ((memEntry log log.length).map (·.term)).getD 0 else 0

/-- Rust `u64::clamp(lo, hi)` = `min (max x lo) hi` (panics if `lo > hi`;
at both call sites `lo = 1 ≤ hi`). -/
def rustClamp (x lo hi : Nat) : Nat :=
  min (max x lo) hi

/-- Insertion sort, ascending; used to model
`select_nth_unstable(k)`, whose chosen element is the `k`-th smallest. -/
def insertSorted (x : Nat) : List Nat → List Nat
  | [] => [x]
  | y :: ys => if x ≤ y then x :: y :: ys else y :: insertSorted x ys

def insertionSort : List Nat → List Nat
  | [] => []
  | x :: xs => insertSorted x (insertionSort xs)

/-- `update_current_term` (asserts `new_term > current_term`, which holds
at every call site): persist `Metadata { new_term, voted_for: None }`,
then update the volatile pair. -/
def updateCurrentTerm (s : NodeState) (newTerm : Nat) : NodeState :=
  { s with metadataHistory := s.metadataHistory ++ [⟨newTerm, none⟩]
           currentTerm := newTerm
           votedFor := none }

/-- `vote_for`: persist `Metadata { current_term, voted_for: Some(id) }`,
then update the volatile field. -/
def voteFor (s : NodeState) (id : Nat) : NodeState :=
  { s with metadataHistory := s.metadataHistory ++ [⟨s.currentTerm, some id⟩]
           votedFor := some id }

/-- `become_follower` (the election-timer reset is not modelled). -/
def becomeFollower (s : NodeState) : NodeState :=
  { s with state := .follower, leaderId := none }

/-- `truncate_log(index)`: asserts Follower, truncates the storage, then
pops pending write requests from the *back* while their index is
`≥ index`, completing each with `NotLeader { leader_id }`. -/
def truncateLog (s : NodeState) (index : Nat) : Option NodeState :=
  if s.state ≠ .follower then none
  else
    let r := s.pendingWrites.reverse
    let popped := r.takeWhile (fun w => decide (w.index ≥ index))
    let remaining := (r.dropWhile (fun w => decide (w.index ≥ index))).reverse
    some { s with
      log := memTruncateEntries s.log index
      pendingWrites := remaining
      writeCompletions :=
        s.writeCompletions ++ popped.map (fun w => (w, .notLeader s.leaderId)) }

/-- The `while self.commit_index > self.last_applied_index` loop of
`exec_operations`, with the iteration count (`commit - applied`) as
fuel.  A missing entry, a pending write with `index >
next_applied_index` (the `assert!`), and the `todo!()` arms for
`AddNode`/`RemoveNode` all panic (`none`). -/
def applyLoop : Nat → NodeState → Option NodeState
  | 0, s => some s
  | fuel + 1, s =>
    let next := s.lastAppliedIndex + 1
    match memEntry s.log next with
    | none => none
    | some e =>
      match e.kind with
      | .noOp =>
        applyLoop fuel { s with lastAppliedIndex := next, lastAppliedTerm := e.term }
      | .command _ =>
        match s.pendingWrites with
        | [] =>
          applyLoop fuel { s with lastAppliedIndex := next, lastAppliedTerm := e.term }
        | w :: rest =>
          if w.index > next then none
          else if w.index = next then
            applyLoop fuel
              { s with pendingWrites := rest
                       writeCompletions := s.writeCompletions ++ [(w, .ok)]
                       lastAppliedIndex := next
                       lastAppliedTerm := e.term }
          else
            applyLoop fuel { s with lastAppliedIndex := next, lastAppliedTerm := e.term }
      | .addNode _ _ => none
      | .removeNode _ => none

/-- The quorum message index of `exec_operations`: collect
`match_message_index` of every node (the node itself contributing
`last_message_index`) and take the element
`select_nth_unstable(len / 2)`, i.e. the `len / 2`-th smallest. -/
def quorumMessageIndex (s : NodeState) : Nat :=
  let vals := s.peers.map
    (fun p => if p.1 = s.nodeId then s.lastMessageIndex else p.2.matchMessageIndex)
  (insertionSort vals).getD (vals.length / 2) 0

/-- The read-acknowledgement predicate of the final `while` loop of
`exec_operations`: the front request is acknowledged while its
message index is covered by the quorum and its snapshot index has been
applied. -/
def readAckP (quorumIdx lastApplied : Nat) (r : ReadReq) : Bool :=
  decide (r.messageIndex ≤ quorumIdx) && decide (r.index ≤ lastApplied)

/-- `exec_operations`: apply newly committed entries, then — when not
leader — drain all pending reads with `NotLeader`; when leader and the
linearizability gate `last_applied_term < current_term` does not hold,
acknowledge the FIFO run of pending reads covered by the quorum. -/
def execOperations (s : NodeState) : Option NodeState := do
  let s ← applyLoop (s.commitIndex - s.lastAppliedIndex) s
  if s.state ≠ .leader then
    return { s with
      pendingReads := []
      readCompletions :=
        s.readCompletions ++ s.pendingReads.map (fun r => (r, .notLeader s.leaderId)) }
  if s.lastAppliedTerm < s.currentTerm then
    return s
  let quorumIdx := quorumMessageIndex s
  return { s with
    pendingReads := s.pendingReads.dropWhile (readAckP quorumIdx s.lastAppliedIndex)
    readCompletions :=
      s.readCompletions ++
        (s.pendingReads.takeWhile (readAckP quorumIdx s.lastAppliedIndex)).map
          (fun r => (r, .ok)) }

/-- `update_commit_index` (leader only): take the median
(`len / 2`-th smallest) of `match_index` over all nodes; advance
`commit_index` to it only if it is larger and the entry there carries
the current term.  The entry lookup `unwrap`s and the code asserts
`n ≤ current_index`. -/
def updateCommitIndex (s : NodeState) : Option NodeState :=
  if s.state ≠ .leader then none
  else
    let matchIndices := s.peers.map (·.2.matchIndex)
    let n := (insertionSort matchIndices).getD (matchIndices.length / 2) 0
    if n > s.commitIndex then
      match memEntry s.log n with
      | none => none
      | some e =>
        if e.term = s.currentTerm then
          if n ≤ s.log.length then some { s with commitIndex := n } else none
        else some s
    else some s

/-- `flush` (asserts Leader): advance the commit index, then apply and
resolve pending requests. -/
def flush (s : NodeState) : Option NodeState := do
  if s.state ≠ .leader then none
  else
    let s ← updateCommitIndex s
    execOperations s

/-- An AppendEntries RPC in flight, with the node that spawned it
(`origin`, the owner of the response future) and its destination. -/
structure AEMsg where
  origin : Nat
  dest : Nat
  req : AppendEntriesReq
deriving DecidableEq, Repr

/-- An AppendEntries response in flight back to `origin`;
`peer` is `RpcResponse.node_id`, the peer that was called. -/
structure AERespMsg where
  origin : Nat
  peer : Nat
  resp : AppendEntriesResp
deriving DecidableEq, Repr

/-- A RequestVote RPC in flight. -/
structure RVMsg where
  origin : Nat
  dest : Nat
  req : RequestVoteReq
deriving DecidableEq, Repr

/-- A RequestVote response in flight back to `origin`. -/
structure RVRespMsg where
  origin : Nat
  peer : Nat
  resp : RequestVoteResp
deriving DecidableEq, Repr

/-- `spawn_append_entries_task(dest)`: look up the peer (`unwrap`),
read `prev_log_term` from `entry(next_index - 1)` (0 when absent),
collect the suffix from `next_index` (`entries` asserts its argument is
positive), allocate a fresh `message_index`, and emit the request. -/
def spawnAppendEntriesTask (s : NodeState) (dest : Nat) :
    Option (NodeState × AEMsg) := do
  let node ← lookupPeer s.peers dest
  if node.nextIndex = 0 then none
  else
    let prevLogTerm := ((memEntry s.log (node.nextIndex - 1)).map (·.term)).getD 0
    let entries := memEntries s.log node.nextIndex
    let lmi := s.lastMessageIndex + 1
    let req : AppendEntriesReq :=
      { term := s.currentTerm
        leaderId := s.nodeId
        prevLogIndex := node.nextIndex - 1
        prevLogTerm := prevLogTerm
        entries := entries
        leaderCommit := s.commitIndex
        messageIndex := lmi }
    some ({ s with lastMessageIndex := lmi }, ⟨s.nodeId, dest, req⟩)

/-- Spawn AppendEntries tasks to the listed destinations in order
(each allocates the next `message_index`). -/
def spawnToAll (s : NodeState) : List Nat → Option (NodeState × List AEMsg)
  | [] => some (s, [])
  | id :: rest => do
    let (s1, m) ← spawnAppendEntriesTask s id
    let (s2, ms) ← spawnToAll s1 rest
    some (s2, m :: ms)

/-- `send_append_entries_to_all` (asserts Leader): AppendEntries to every
node but self, in ascending node-id (BTreeMap key) order. -/
def sendAppendEntriesToAll (s : NodeState) : Option (NodeState × List AEMsg) :=
  if s.state ≠ .leader then none
  else spawnToAll s (((s.peers.map (·.1)).filter (fun id => id ≠ s.nodeId)))

/-- The conflict scan of `handle_append_entries` step 3: walk the
incoming entries; stop at the first locally missing index, or at the
first term conflict (whose log index is returned for truncation).
Returns `(num_matching, conflict index)`. -/
def scanConflicts (log : List Entry) (prev : Nat) :
    List Entry → Nat → Nat × Option Nat
  | [], _ => (0, none)
  | e :: rest, i =>
    match memEntry log (prev + i + 1) with
    | none => (0, none)
    | some ex =>
      if ex.term ≠ e.term then (0, some (prev + i + 1))
      else
        let (m, t) := scanConflicts log prev rest (i + 1)
        (m + 1, t)

/-- Step 5 of `handle_append_entries` (server.rs lines 250–254):
`if leader_commit > self.commit_index { self.commit_index =
self.storage.current_index().clamp(1, leader_commit) }`, the log length
re-read after any append. -/
def step5CommitUpdate (s : NodeState) (leaderCommit : Nat) : NodeState :=
  if leaderCommit > s.commitIndex then
    { s with commitIndex := rustClamp s.log.length 1 leaderCommit }
  else s

/-- `handle_append_entries`.  `current_index` in the `false` replies is
the log length captured at entry to the handler; the success reply
carries `prev_log_index + entries.len()`. -/
def handleAppendEntries (s0 : NodeState) (r : AppendEntriesReq) :
    Option (NodeState × AppendEntriesResp) := do
  let currentIndex := s0.log.length
  if r.term < s0.currentTerm then
    return (s0, ⟨s0.currentTerm, false, r.messageIndex, currentIndex⟩)
  let s1 := if r.term > s0.currentTerm then updateCurrentTerm s0 r.term else s0
  let s2 := if s1.state ≠ .follower then becomeFollower s1 else s1
  let s3 := { s2 with leaderId := some r.leaderId }
  if r.prevLogIndex > 0 then
    match memEntry s3.log r.prevLogIndex with
    | some e =>
      if e.term ≠ r.prevLogTerm then
        let s4 ← truncateLog s3 r.prevLogIndex
        return (s4, ⟨s4.currentTerm, false, r.messageIndex, currentIndex⟩)
    | none =>
      return (s3, ⟨s3.currentTerm, false, r.messageIndex, currentIndex⟩)
  let (numMatching, conflictAt) := scanConflicts s3.log r.prevLogIndex r.entries 0
  let s4 ← match conflictAt with
           | some idx => truncateLog s3 idx
           | none => pure s3
  let s5 :=
    if numMatching < r.entries.length then
      { s4 with log := memAppendEntries s4.log (r.entries.drop numMatching) }
    else s4
  let s6 := step5CommitUpdate s5 r.leaderCommit
  let s7 ← execOperations s6
  return (s7, ⟨s7.currentTerm, true, r.messageIndex, r.prevLogIndex + r.entries.length⟩)

/-- `handle_append_entries_response` on a successfully delivered
response (transport errors are logged and dropped by the caller).
May re-send an AppendEntries to the peer on the rewind path. -/
def handleAppendEntriesResponse (s : NodeState) (peer : Nat)
    (resp : AppendEntriesResp) : Option (NodeState × Option AEMsg) := do
  if s.state ≠ .leader then
    return (s, none)
  if resp.term > s.currentTerm then
    return (becomeFollower (updateCurrentTerm s resp.term), none)
  let node ← lookupPeer s.peers peer
  if ¬ resp.success then
    if resp.currentIndex < node.matchIndex then
      return (s, none)
    let s1 := { s with peers := (updatePeer s.peers peer
        (fun n => { n with nextIndex := rustClamp s.log.length 1 (resp.currentIndex + 1) })) }
    let (s2, msg) ← spawnAppendEntriesTask s1 peer
    return (s2, some msg)
  else
    let s1 := { s with peers := (updatePeer s.peers peer
        (fun n =>
          { n with nextIndex := max s.log.length 1
                   matchIndex := max n.matchIndex resp.currentIndex
                   matchMessageIndex := max n.matchMessageIndex resp.messageIndex })) }
    let s2 ← flush s1
    return (s2, none)

/-- `handle_request_vote`.  The grant path asserts
`self.state == Follower` just before recording the vote. -/
def handleRequestVote (s : NodeState) (r : RequestVoteReq) :
    Option (NodeState × RequestVoteResp) := do
  let s1 :=
    if r.term > s.currentTerm then becomeFollower (updateCurrentTerm s r.term) else s
  if r.term < s1.currentTerm then
    return (s1, ⟨s1.currentTerm, false⟩)
  if let some id := s1.votedFor then
    if id ≠ r.candidateId then
      return (s1, ⟨s1.currentTerm, false⟩)
  let currentIndex := s1.log.length
  let lastT := lastTerm s1.log
  if r.lastLogTerm < lastT ∨ (r.lastLogTerm = lastT ∧ r.lastLogIndex < currentIndex) then
    return (s1, ⟨s1.currentTerm, false⟩)
  if s1.state ≠ .follower then none
  else
    let s2 := voteFor s1 r.candidateId
    return (s2, ⟨s2.currentTerm, true⟩)

/-- `become_leader`: append a NoOp at the current term, set
`match_index` for self to the new `current_index`, reset each peer's
`next_index`/`match_index`, broadcast AppendEntries, and flush. -/
def becomeLeader (s : NodeState) : Option (NodeState × List AEMsg) := do
  let s1 := { s with
    state := .leader
    leaderId := some s.nodeId
    log := memAppendEntries s.log [⟨.noOp, s.currentTerm⟩] }
  let ci := s1.log.length
  let s2 := { s1 with peers := s1.peers.map (fun p =>
    if p.1 = s1.nodeId then (p.1, { p.2 with matchIndex := ci })
    else (p.1, { p.2 with nextIndex := max ci 1, matchIndex := 0 })) }
  let (s3, msgs) ← sendAppendEntriesToAll s2
  let s4 ← flush s3
  return (s4, msgs)

/-- `become_candidate`: set Candidate, increment and persist the term,
vote for self (second persist), reset the vote tallies, and broadcast
RequestVote to all other nodes. -/
def becomeCandidate (s : NodeState) : NodeState × List RVMsg :=
  let s1 := { s with state := .candidate }
  let s2 := updateCurrentTerm s1 (s1.currentTerm + 1)
  let s3 := voteFor s2 s2.nodeId
  let s4 := { s3 with
    leaderId := none
    peers := s3.peers.map (fun p => (p.1, { p.2 with votedForMe := p.1 = s3.nodeId })) }
  let req : RequestVoteReq :=
    { term := s4.currentTerm
      candidateId := s4.nodeId
      lastLogIndex := s4.log.length
      lastLogTerm := lastTerm s4.log }
  (s4, ((s4.peers.map (·.1)).filter (fun id => id ≠ s4.nodeId)).map
    (fun id => ⟨s4.nodeId, id, req⟩))

/-- `handle_request_vote_response` on a successfully delivered response:
step down on a newer term; otherwise, while still Candidate in the same
term, record the vote and become Leader on a strict majority. -/
def handleRequestVoteResponse (s : NodeState) (peer : Nat)
    (resp : RequestVoteResp) : Option (NodeState × List AEMsg) := do
  if resp.term > s.currentTerm then
    return (becomeFollower (updateCurrentTerm s resp.term), [])
  if s.state ≠ .candidate ∨ resp.term ≠ s.currentTerm then
    return (s, [])
  if resp.voteGranted then
    let _ ← lookupPeer s.peers peer
    let s1 := { s with peers := (updatePeer s.peers peer
        (fun n => { n with votedForMe := true })) }
    if (s1.peers.filter (·.2.votedForMe)).length > s1.peers.length / 2 then
      becomeLeader s1
    else
      return (s1, [])
  else
    return (s, [])

/-- `start_election` (the election-timer select arm asserts Follower or
Candidate): a single-node cluster self-promotes by bumping the term
directly; otherwise become Candidate and broadcast RequestVote. -/
def startElection (s : NodeState) :
    Option (NodeState × List AEMsg × List RVMsg) := do
  if s.state = .leader then none
  else if s.peers.length = 1 then
    if ¬ (s.peers.any (fun p => p.1 = s.nodeId)) then none
    else
      let s1 := updateCurrentTerm s (s.currentTerm + 1)
      let (s2, msgs) ← becomeLeader s1
      return (s2, msgs, [])
  else
    let (s1, rvs) := becomeCandidate s
    return (s1, [], rvs)

/-- `handle_write`: a non-leader immediately rejects the caller with
`NotLeader` (no state change); a leader appends a `Command` entry at the
current term, records `match_index` for self, queues the write request
in FIFO order, and flushes. -/
def handleWrite (s : NodeState) (cmd : Nat) : Option NodeState := do
  if s.state ≠ .leader then
    return s
  let s1 := { s with log := memAppendEntries s.log [⟨.command cmd, s.currentTerm⟩] }
  let index := s1.log.length
  let _ ← lookupPeer s1.peers s1.nodeId
  let s2 := { s1 with
    peers := updatePeer s1.peers s1.nodeId (fun n => { n with matchIndex := index })
    pendingWrites := s1.pendingWrites ++ [⟨index⟩] }
  flush s2

/-- `handle_read`: a leader snapshots `current_index`, allocates a fresh
`message_index`, queues the read request, and flushes; a non-leader
immediately rejects the caller. -/
def handleRead (s : NodeState) : Option NodeState := do
  if s.state = .leader then
    let index := s.log.length
    let lmi := s.lastMessageIndex + 1
    let s1 := { s with
      lastMessageIndex := lmi
      pendingReads := s.pendingReads ++ [⟨index, lmi⟩] }
    flush s1
  else
    return s

/-- `Server::new` with the memory storage: `load()` returns the default
metadata `(0, None)`; all volatile counters start at zero, peer state is
`Node::new()` for every configured node, and the node starts as
Follower. -/
def initNode (id : Nat) (ids : List Nat) : NodeState :=
  { nodeId := id
    currentTerm := 0
    votedFor := none
    commitIndex := 0
    lastAppliedIndex := 0
    lastAppliedTerm := 0
    lastMessageIndex := 0
    peers := ids.map (fun i => (i, {}))
    state := .follower
    leaderId := none
    log := []
    pendingWrites := []
    pendingReads := []
    metadataHistory := []
    writeCompletions := []
    readCompletions := [] }

/-- C6 counterexample: starting from a fresh two-node follower at term 0,
`become_candidate` performs *two* metadata persists — first
`(current_term + 1, None)` from `update_current_term`, then
`(current_term + 1, Some(self))` from `vote_for` — so the pair is not
persisted as one single metadata write, and an intermediate record with
the new term and an empty vote is written. -/
theorem c6_two_metadata_writes :
    (becomeCandidate (initNode 0 [0, 1])).1.metadataHistory =
        [⟨1, none⟩, ⟨1, some 0⟩] ∧
      (becomeCandidate (initNode 0 [0, 1])).1.metadataHistory.length = 2 ∧
      (becomeCandidate (initNode 0 [0, 1])).1.metadataHistory.length ≠ 1 ∧
      (becomeCandidate (initNode 0 [0, 1])).1.metadataHistory.headD ⟨0, some 0⟩ =
        ⟨1, none⟩ := by
  refine ⟨rfl, rfl, by decide, rfl⟩

/-- C6 (amended): on conversion to candidate the node increments
`current_term` and sets `voted_for` to its own id, persisting them in
*two* consecutive metadata writes: first `(current_term + 1, None)`
(via `update_current_term`), then `(current_term + 1, Some(self))`
(via `vote_for`). -/
theorem c6_become_candidate_behavior (s : NodeState) :
    (becomeCandidate s).1.currentTerm = s.currentTerm + 1 ∧
      (becomeCandidate s).1.votedFor = some s.nodeId ∧
      (becomeCandidate s).1.state = .candidate ∧
      (becomeCandidate s).1.leaderId = none ∧
      (becomeCandidate s).1.metadataHistory =
        s.metadataHistory ++
          [⟨s.currentTerm + 1, none⟩, ⟨s.currentTerm + 1, some s.nodeId⟩] := by
  refine ⟨rfl, rfl, rfl, rfl, ?_⟩
  simp [becomeCandidate, updateCurrentTerm, voteFor]

/-- The C3 failing input: an empty-log follower at term 0 receiving an
otherwise-valid AppendEntries with `leader_commit = 7` and no entries. -/
def c3State : NodeState := initNode 0 [0, 1]

def c3Req : AppendEntriesReq :=
  { term := 0, leaderId := 1, prevLogIndex := 0, prevLogTerm := 0,
    entries := [], leaderCommit := 7, messageIndex := 0 }

/-- C3: the claim (and the code's own comment) say the handler sets
`commit_index = min(leader_commit, current_index)`; the code computes
`current_index.clamp(1, leader_commit)` instead.  On the failing input
(`current_index = 0` after the append step, `leader_commit = 7`) the
code sets `commit_index = 1` where `min(7, 0) = 0`, and the handler then
panics in `exec_operations` unwrapping the missing entry 1. -/
theorem c3_commit_clamp_diverges :
    (step5CommitUpdate c3State 7).commitIndex = 1 ∧
      min 7 (currentIndexOf c3State) = 0 ∧
      (1 : Nat) ≠ 0 ∧
      handleAppendEntries c3State c3Req = none := by
  refine ⟨rfl, rfl, by decide, rfl⟩

/-- On a queue with strictly increasing indices, popping from the back
while the index is `≥ idx` removes exactly the requests with index
`≥ idx` (in back-to-front order) and keeps exactly those with index
`< idx`. -/
theorem popBack_sorted (l : List WriteReq) (idx : Nat)
    (h : l.Pairwise (fun a b => a.index < b.index)) :
    l.reverse.takeWhile (fun w => decide (w.index ≥ idx)) =
        (l.filter (fun w => decide (w.index ≥ idx))).reverse ∧
      (l.reverse.dropWhile (fun w => decide (w.index ≥ idx))).reverse =
        l.filter (fun w => decide (w.index < idx)) := by
  induction l using List.reverseRecOn with
  | nil => simp
  | append_singleton t a ih =>
    rw [List.pairwise_append] at h
    obtain ⟨hp, -, hlt⟩ := h
    have hta : ∀ x ∈ t, x.index < a.index := fun x hx => hlt x hx a (by simp)
    obtain ⟨ih1, ih2⟩ := ih hp
    by_cases hge : a.index ≥ idx
    · constructor
      · simp [List.takeWhile_cons, List.filter_append, hge, ih1]
      · have hna : ¬ a.index < idx := by omega
        simp [List.dropWhile_cons, List.filter_append, hge, ih2, hna]
    · have hax : a.index < idx := by omega
      have hallt : ∀ x ∈ t, x.index < idx := fun x hx => lt_trans (hta x hx) hax
      have hfilter_ge : t.filter (fun w => decide (w.index ≥ idx)) = [] := by
        rw [List.filter_eq_nil]
        intro x hx
        simp only [decide_eq_true_eq, ge_iff_le]
        have := hallt x hx
        omega
      have hfilter_lt : t.filter (fun w => decide (w.index < idx)) = t := by
        rw [List.filter_eq_self]
        intro x hx
        simp [hallt x hx]
      have hna : ¬ idx ≤ a.index := by omega
      constructor
      · simp [List.takeWhile_cons, List.filter_append, hfilter_ge, hna]
      · simp [List.dropWhile_cons, List.filter_append, hfilter_lt, hax, hna]

/-- C5: on a follower whose pending-write queue carries strictly
increasing indices, `truncate_log(I)` completes exactly the pending
writes with index `≥ I` with `NotLeader { leader_id }` (popped back to
front), keeps exactly the pending writes with index `< I` in order, and
truncates the log at `I`. -/
theorem c5_truncate_log_pending_writes (s : NodeState) (idx : Nat)
    (hf : s.state = .follower)
    (hsorted : s.pendingWrites.Pairwise (fun a b => a.index < b.index)) :
    truncateLog s idx =
      some { s with
        log := memTruncateEntries s.log idx
        pendingWrites := s.pendingWrites.filter (fun w => decide (w.index < idx))
        writeCompletions :=
          s.writeCompletions ++
            (s.pendingWrites.filter (fun w => decide (w.index ≥ idx))).reverse.map
              (fun w => (w, .notLeader s.leaderId)) } := by
  obtain ⟨h1, h2⟩ := popBack_sorted s.pendingWrites idx hsorted
  simp only [truncateLog, hf]
  rw [if_neg (by simp)]
  rw [h1, h2]

/-- A follower with three pending writes at indices 2, 3, 4 for the C5
witness. -/
def c5State : NodeState :=
  { initNode 0 [0, 1] with
    state := .follower
    leaderId := some 1
    log := [⟨.noOp, 1⟩, ⟨.command 5, 1⟩, ⟨.command 6, 1⟩, ⟨.command 7, 1⟩]
    pendingWrites := [⟨2⟩, ⟨3⟩, ⟨4⟩] }

theorem c5_truncate_log_pending_writes_witness :
    c5State.state = .follower ∧
      c5State.pendingWrites.Pairwise (fun a b => a.index < b.index) ∧
      truncateLog c5State 3 =
        some { c5State with
          log := memTruncateEntries c5State.log 3
          pendingWrites :=
            c5State.pendingWrites.filter (fun w => decide (w.index < 3))
          writeCompletions :=
            c5State.writeCompletions ++
              (c5State.pendingWrites.filter (fun w => decide (w.index ≥ 3))).reverse.map
                (fun w => (w, .notLeader c5State.leaderId)) } := by
  refine ⟨rfl, by decide, ?_⟩
  exact c5_truncate_log_pending_writes c5State 3 rfl (by decide)

/-- The apply loop only applies entries and completes write requests:
every other field of the node is untouched. -/
theorem applyLoop_preserves (fuel : Nat) (s s' : NodeState)
    (h : applyLoop fuel s = some s') :
    s'.state = s.state ∧ s'.currentTerm = s.currentTerm ∧ s'.peers = s.peers ∧
      s'.lastMessageIndex = s.lastMessageIndex ∧
      s'.pendingReads = s.pendingReads ∧
      s'.readCompletions = s.readCompletions ∧
      s'.commitIndex = s.commitIndex ∧ s'.log = s.log ∧
      s'.nodeId = s.nodeId ∧ s'.leaderId = s.leaderId ∧
      s'.votedFor = s.votedFor := by
  induction fuel generalizing s with
  | zero =>
    simp only [applyLoop, Option.some.injEq] at h
    subst h
    simp
  | succ fuel ih =>
    simp only [applyLoop] at h
    repeat' split at h
    all_goals
      first
        | exact Option.noConfusion h
        | (obtain ⟨a1, a2, a3, a4, a5, a6, a7, a8, a9, a10, a11⟩ := ih _ h
           simp_all)

/-- The quorum message index only depends on the peer table, the node id
and `last_message_index`. -/
theorem quorumMessageIndex_congr (s1 s2 : NodeState)
    (hp : s1.peers = s2.peers) (hn : s1.nodeId = s2.nodeId)
    (hm : s1.lastMessageIndex = s2.lastMessageIndex) :
    quorumMessageIndex s1 = quorumMessageIndex s2 := by
  simp [quorumMessageIndex, hp, hn, hm]

/-- C4: on a leader, `exec_operations` acknowledges pending reads
exactly as the claim describes: nothing is acknowledged unless the
post-apply `last_applied_term` equals `current_term` (the
linearizability gate, given the invariant `last_applied_term ≤
current_term`); when the gate holds, the acknowledged requests are
precisely the maximal FIFO front run of pending reads whose
`message_index` is at most the quorum message index (the median of
`match_message_index` with self contributing `last_message_index`) and
whose snapshot index is at most `last_applied_index`; each is completed
with success, and the rest remain pending in order. -/
theorem c4_read_barrier (s s' : NodeState)
    (hl : s.state = .leader)
    (hexec : execOperations s = some s')
    (hterm : s'.lastAppliedTerm ≤ s.currentTerm) :
    (s'.lastAppliedTerm = s.currentTerm →
        s'.pendingReads =
            s.pendingReads.dropWhile
              (readAckP (quorumMessageIndex s) s'.lastAppliedIndex) ∧
          s'.readCompletions =
            s.readCompletions ++
              (s.pendingReads.takeWhile
                (readAckP (quorumMessageIndex s) s'.lastAppliedIndex)).map
                (fun r => (r, .ok))) ∧
      (s'.lastAppliedTerm ≠ s.currentTerm →
        s'.pendingReads = s.pendingReads ∧
          s'.readCompletions = s.readCompletions) := by
  simp only [execOperations, Option.bind_eq_bind, Option.pure_def, bind] at hexec
  cases hap : applyLoop (s.commitIndex - s.lastAppliedIndex) s with
  | none => rw [hap] at hexec; exact absurd hexec (by simp)
  | some s1 =>
    rw [hap] at hexec
    simp only [Option.some_bind] at hexec
    obtain ⟨p1, p2, p3, p4, p5, p6, p7, p8, p9, p10, p11⟩ :=
      applyLoop_preserves _ _ _ hap
    rw [if_neg (by simp [p1, hl])] at hexec
    by_cases hgate : s1.lastAppliedTerm < s1.currentTerm
    · rw [if_pos hgate] at hexec
      simp only [Option.pure_def, Option.some.injEq] at hexec
      subst hexec
      constructor
      · intro heq
        rw [heq] at hgate
        rw [p2] at hgate
        omega
      · intro _
        exact ⟨p5, p6⟩
    · rw [if_neg hgate] at hexec
      simp only [Option.pure_def, Option.some.injEq] at hexec
      subst hexec
      have hq : quorumMessageIndex s1 = quorumMessageIndex s :=
        quorumMessageIndex_congr s1 s p3 p9 p4
      constructor
      · intro _
        constructor
        · simp [hq, p5]
        · simp [hq, p5, p6]
      · intro hne
        rw [p2] at hgate
        simp only at hne hterm
        omega

/-- A single-node leader with one committed NoOp and one pending read,
for the C4 witness. -/
def c4State : NodeState :=
  { initNode 0 [0] with
    state := .leader
    currentTerm := 1
    leaderId := some 0
    log := [⟨.noOp, 1⟩]
    commitIndex := 1
    lastMessageIndex := 1
    pendingReads := [⟨1, 1⟩] }

def c4After : NodeState := (execOperations c4State).getD c4State

theorem c4_read_barrier_witness :
    c4State.state = .leader ∧
      execOperations c4State = some c4After ∧
      c4After.lastAppliedTerm ≤ c4State.currentTerm ∧
      ((c4After.lastAppliedTerm = c4State.currentTerm →
          c4After.pendingReads =
              c4State.pendingReads.dropWhile
                (readAckP (quorumMessageIndex c4State) c4After.lastAppliedIndex) ∧
            c4After.readCompletions =
              c4State.readCompletions ++
                (c4State.pendingReads.takeWhile
                  (readAckP (quorumMessageIndex c4State) c4After.lastAppliedIndex)).map
                  (fun r => (r, .ok))) ∧
        (c4After.lastAppliedTerm ≠ c4State.currentTerm →
          c4After.pendingReads = c4State.pendingReads ∧
            c4After.readCompletions = c4State.readCompletions)) :=
  ⟨rfl, rfl, by decide, c4_read_barrier c4State c4After rfl rfl (by decide)⟩

/-! ## Cluster-level step relation

A world is the fixed set of Raft nodes plus the RPC requests and
responses in flight.  One step delivers one in-flight message to its
destination (running the corresponding handler), submits a client write
or read, or fires a timer select-arm (heartbeat on a leader, election
deadline on a follower/candidate).  Messages may stay in flight forever
(loss/delay); a delivered message is consumed.  A step is only enabled
when the handler does not panic (`Option.some`). -/

structure World where
  nodes : List (Nat × NodeState)
  aeMsgs : List AEMsg
  rvMsgs : List RVMsg
  aeResps : List AERespMsg
  rvResps : List RVRespMsg
deriving DecidableEq, Repr

def lookupNode (nodes : List (Nat × NodeState)) (id : Nat) : Option NodeState :=
  (nodes.find? (fun p => p.1 = id)).map (·.2)

def updateNode (nodes : List (Nat × NodeState)) (id : Nat) (n : NodeState) :
    List (Nat × NodeState) :=
  nodes.map (fun p => if p.1 = id then (p.1, n) else p)

/-- The cluster at startup: every configured node fresh. -/
def initWorld (ids : List Nat) : World :=
  { nodes := ids.map (fun i => (i, initNode i ids))
    aeMsgs := []
    rvMsgs := []
    aeResps := []
    rvResps := [] }

/-- Deliver the `k`-th in-flight AppendEntries to its destination; the
response future of the spawning task resolves, so the response is
addressed back to the origin. -/
def deliverAEW (w : World) (k : Nat) : Option World := do
  let m ← w.aeMsgs.get? k
  let n ← lookupNode w.nodes m.dest
  let (n', resp) ← handleAppendEntries n m.req
  some { w with
    aeMsgs := w.aeMsgs.eraseIdx k
    nodes := updateNode w.nodes m.dest n'
    aeResps := w.aeResps ++ [⟨m.origin, m.dest, resp⟩] }

/-- Deliver the `k`-th in-flight RequestVote. -/
def deliverRVW (w : World) (k : Nat) : Option World := do
  let m ← w.rvMsgs.get? k
  let n ← lookupNode w.nodes m.dest
  let (n', resp) ← handleRequestVote n m.req
  some { w with
    rvMsgs := w.rvMsgs.eraseIdx k
    nodes := updateNode w.nodes m.dest n'
    rvResps := w.rvResps ++ [⟨m.origin, m.dest, resp⟩] }

/-- Deliver the `k`-th AppendEntries response to the node that sent the
request (the rewind path may emit a retry AppendEntries). -/
def deliverAERespW (w : World) (k : Nat) : Option World := do
  let m ← w.aeResps.get? k
  let n ← lookupNode w.nodes m.origin
  let (n', msg) ← handleAppendEntriesResponse n m.peer m.resp
  some { w with
    aeResps := w.aeResps.eraseIdx k
    nodes := updateNode w.nodes m.origin n'
    aeMsgs := w.aeMsgs ++ (match msg with | some x => [x] | none => []) }

/-- Deliver the `k`-th RequestVote response (becoming leader broadcasts
AppendEntries). -/
def deliverRVRespW (w : World) (k : Nat) : Option World := do
  let m ← w.rvResps.get? k
  let n ← lookupNode w.nodes m.origin
  let (n', msgs) ← handleRequestVoteResponse n m.peer m.resp
  some { w with
    rvResps := w.rvResps.eraseIdx k
    nodes := updateNode w.nodes m.origin n'
    aeMsgs := w.aeMsgs ++ msgs }

/-- A client submits a write to node `id` (`Message::Write`). -/
def clientWriteW (w : World) (id : Nat) (cmd : Nat) : Option World := do
  let n ← lookupNode w.nodes id
  let n' ← handleWrite n cmd
  some { w with nodes := updateNode w.nodes id n' }

/-- A client submits a read barrier to node `id` (`Message::Read`). -/
def clientReadW (w : World) (id : Nat) : Option World := do
  let n ← lookupNode w.nodes id
  let n' ← handleRead n
  some { w with nodes := updateNode w.nodes id n' }

/-- The heartbeat tick select arm (enabled only on a leader). -/
def heartbeatW (w : World) (id : Nat) : Option World := do
  let n ← lookupNode w.nodes id
  if n.state ≠ .leader then none
  else
    let (n', msgs) ← sendAppendEntriesToAll n
    some { w with nodes := updateNode w.nodes id n', aeMsgs := w.aeMsgs ++ msgs }

/-- The election deadline select arm (enabled only on a follower or
candidate); also covers the immediate startup election of a single-node
cluster. -/
def electionTimeoutW (w : World) (id : Nat) : Option World := do
  let n ← lookupNode w.nodes id
  if n.state = .leader then none
  else
    let (n', aes, rvs) ← startElection n
    some { w with
      nodes := updateNode w.nodes id n'
      aeMsgs := w.aeMsgs ++ aes
      rvMsgs := w.rvMsgs ++ rvs }

/-- One step of the cluster: any interleaving of client writes, reads,
AppendEntries, RequestVote, their responses, and timer events. -/
inductive WStep : World → World → Prop
  | deliverAE (w w' : World) (k : Nat) :
      deliverAEW w k = some w' → WStep w w'
  | deliverRV (w w' : World) (k : Nat) :
      deliverRVW w k = some w' → WStep w w'
  | deliverAEResp (w w' : World) (k : Nat) :
      deliverAERespW w k = some w' → WStep w w'
  | deliverRVResp (w w' : World) (k : Nat) :
      deliverRVRespW w k = some w' → WStep w w'
  | clientWrite (w w' : World) (id cmd : Nat) :
      clientWriteW w id cmd = some w' → WStep w w'
  | clientRead (w w' : World) (id : Nat) :
      clientReadW w id = some w' → WStep w w'
  | heartbeat (w w' : World) (id : Nat) :
      heartbeatW w id = some w' → WStep w w'
  | electionTimeout (w w' : World) (id : Nat) :
      electionTimeoutW w id = some w' → WStep w w'

/-- Reachability from the fresh cluster over `ids`. -/
def WReachable (ids : List Nat) (w : World) : Prop :=
  Relation.ReflTransGen WStep (initWorld ids) w

/-! ## C2: a reachable state violating
`last_applied_index ≤ commit_index ≤ current_index` -/

/-- A cluster event, used to spell out a concrete run. -/
inductive TraceAct where
  | timeout (id : Nat)
  | dae (k : Nat)
  | drv (k : Nat)
  | daer (k : Nat)
  | drvr (k : Nat)
  | wr (id cmd : Nat)
  | hb (id : Nat)
deriving DecidableEq, Repr

def applyTraceAct (w : World) : TraceAct → Option World
  | .timeout id => electionTimeoutW w id
  | .dae k => deliverAEW w k
  | .drv k => deliverRVW w k
  | .daer k => deliverAERespW w k
  | .drvr k => deliverRVRespW w k
  | .wr id cmd => clientWriteW w id cmd
  | .hb id => heartbeatW w id

def runTrace (w : World) : List TraceAct → Option World
  | [] => some w
  | a :: rest => (applyTraceAct w a).bind (fun w' => runTrace w' rest)

/-- A successfully executed event list is a chain of cluster steps. -/
theorem runTrace_reachable (acts : List TraceAct) (w w' : World)
    (h : runTrace w acts = some w') : Relation.ReflTransGen WStep w w' := by
  induction acts generalizing w with
  | nil =>
    simp only [runTrace, Option.some.injEq] at h
    subst h
    exact Relation.ReflTransGen.refl
  | cons a rest ih =>
    simp only [runTrace, Option.bind_eq_bind] at h
    cases ha : applyTraceAct w a with
    | none => rw [ha] at h; exact absurd h (by simp)
    | some w1 =>
      rw [ha] at h
      simp only [Option.some_bind] at h
      refine Relation.ReflTransGen.head ?_ (ih w1 h)
      cases a with
      | timeout id => exact WStep.electionTimeout w w1 id ha
      | dae k => exact WStep.deliverAE w w1 k ha
      | drv k => exact WStep.deliverRV w w1 k ha
      | daer k => exact WStep.deliverAEResp w w1 k ha
      | drvr k => exact WStep.deliverRVResp w w1 k ha
      | wr id cmd => exact WStep.clientWrite w w1 id cmd ha
      | hb id => exact WStep.heartbeat w w1 id ha

def ids5 : List Nat := [0, 1, 2, 3, 4]

/-- A 32-event honest, crash-free run of a five-node cluster
{0, 1, 2, 3, 4}:
1. node 0 is elected leader of term 1 (votes 1, 2) and appends its NoOp;
   node 2 replicates it;
2. node 0 appends two client commands and heartbeats; node 1 replicates
   all three entries and acknowledges — that success response
   (term 1, current_index 3, message_index 5) stays in flight;
3. node 2 is elected leader of term 2 (votes 3, 4), appends its NoOp at
   index 2, and replicates to node 0, which truncates its two commands;
4. node 0 is elected leader of term 3 (votes 2, 3), appends its NoOp at
   index 3, and node 2 acknowledges it (match 2/5);
5. the stale term-1 response from node 1 now arrives; the response
   handler does not check `response.term == current_term` (unlike the
   RequestVote response handler) and records `match_index[1] = 3`, so
   the match-index median reaches 3 and node 0 commits and applies
   index 3, held by only 2 of 5 nodes;
6. node 1 (whose log is still the three term-1 entries) is elected
   leader of term 4 (votes 3, 4), appends its NoOp at index 4, and its
   AppendEntries `prev_log_index = 3, prev_log_term = 1` makes node 0
   truncate at index 3 — below its own commit index. -/
def c2Trace : List TraceAct :=
  [.timeout 0, .drv 0, .drvr 0, .drv 0, .drvr 0,
   .dae 1, .wr 0 100, .wr 0 101, .hb 0, .dae 3,
   .timeout 2, .drv 4, .drvr 0, .drv 4, .drvr 0,
   .dae 6, .timeout 0,
   .drv 5, .drvr 0, .drv 5, .drvr 0,
   .dae 10, .daer 3, .daer 1,
   .timeout 1, .timeout 1, .timeout 1,
   .drv 16, .drvr 0, .drv 16, .drvr 0,
   .dae 12]

def c2World : World := (runTrace (initWorld ids5) c2Trace).getD (initWorld ids5)

/-- C2: the invariant `last_applied_index ≤ commit_index ≤ current_index`
is violated in a reachable state: after the honest run `c2Trace`
(no crashes, every message generated by the protocol itself), node 0 is
a follower with `commit_index = 3` and `last_applied_index = 3` but only
2 log entries.  Root cause: `handle_append_entries_response` accepts
success responses from stale terms (it lacks the
`response.term == current_term` check that
`handle_request_vote_response` performs), inflating `match_index` and
committing an entry without a real quorum; a later legitimate leader
then forces a truncation below the commit index. -/
theorem c2_invariant_violated_in_reachable_state :
    WReachable ids5 c2World ∧
      (lookupNode c2World.nodes 0).map
          (fun n => (n.lastAppliedIndex, n.commitIndex, n.log.length)) =
        some (3, 3, 2) ∧
      ¬ ((3 : Nat) ≤ 2) := by
  refine ⟨?_, by rfl, by decide⟩
  exact runTrace_reachable c2Trace (initWorld ids5) c2World (by rfl)


/-! ## C10: votes are granted only in Follower state

The Follower assertion of `handle_request_vote` sits just before the
vote is recorded.  We show it can never fail in a reachable cluster
state, via an inductive invariant: a node that is not a Follower has
always voted for itself (in a multi-node cluster), and every in-flight
RequestVote names a candidate different from its destination, so the
`voted_for` check rejects the request before the assertion whenever the
destination is a Candidate or Leader. -/

/-- The node-id keys of a node's peer table. -/
def keysOf (n : NodeState) : List Nat := n.peers.map Prod.fst

/-- The per-node voting invariant: outside Follower state, the node has
voted for itself. -/
def VoteInvP (n : NodeState) : Prop :=
  n.state ≠ .follower → n.votedFor = some n.nodeId

/-- The fields relevant to the voting invariant are preserved exactly. -/
def Pres4 (a b : NodeState) : Prop :=
  a.nodeId = b.nodeId ∧ keysOf a = keysOf b ∧ a.state = b.state ∧ a.votedFor = b.votedFor

/-- Identity and peer keys are preserved, and the voting invariant is
transported. -/
def PresV (a b : NodeState) : Prop :=
  a.nodeId = b.nodeId ∧ keysOf a = keysOf b ∧ (VoteInvP b → VoteInvP a)

theorem pres4_refl (s : NodeState) : Pres4 s s := ⟨rfl, rfl, rfl, rfl⟩

theorem pres4_trans {a b c : NodeState} (h1 : Pres4 a b) (h2 : Pres4 b c) : Pres4 a c := by
  obtain ⟨x1, x2, x3, x4⟩ := h1
  obtain ⟨y1, y2, y3, y4⟩ := h2
  exact ⟨x1.trans y1, x2.trans y2, x3.trans y3, x4.trans y4⟩

theorem voteInvP_of_pres4 {a b : NodeState} (h : Pres4 a b) (hv : VoteInvP b) : VoteInvP a := by
  obtain ⟨h1, h2, h3, h4⟩ := h
  intro hs
  rw [h4, h1]
  exact hv (h3 ▸ hs)

theorem presV_of_pres4 {a b : NodeState} (h : Pres4 a b) : PresV a b :=
  ⟨h.1, h.2.1, fun hv => voteInvP_of_pres4 h hv⟩

theorem presV_trans {a b c : NodeState} (h1 : PresV a b) (h2 : PresV b c) : PresV a c :=
  ⟨h1.1.trans h2.1, h1.2.1.trans h2.2.1, fun hv => h1.2.2 (h2.2.2 hv)⟩

/-- Mapping a key-preserving function over an association list keeps the
key list. -/
theorem map_fst_of_fst_eq {β : Type} (ps : List (Nat × β)) (f : Nat × β → Nat × β)
    (hf : ∀ p, (f p).1 = p.1) :
    (ps.map f).map Prod.fst = ps.map Prod.fst := by
  simp only [List.map_map]
  exact List.map_congr_left (fun p _ => by simp [Function.comp, hf])

theorem updatePeer_keys (ps : List (Nat × PeerState)) (id : Nat) (f : PeerState → PeerState) :
    (updatePeer ps id f).map Prod.fst = ps.map Prod.fst := by
  simp only [updatePeer]
  exact map_fst_of_fst_eq ps _ (fun p => by by_cases h : p.1 = id <;> simp [h])

theorem updateNode_keys (nodes : List (Nat × NodeState)) (id : Nat) (n : NodeState) :
    (updateNode nodes id n).map Prod.fst = nodes.map Prod.fst := by
  simp only [updateNode]
  exact map_fst_of_fst_eq nodes _ (fun p => by by_cases h : p.1 = id <;> simp [h])

/-- A successful lookup is a membership at that key. -/
theorem lookupNode_mem (nodes : List (Nat × NodeState)) (id : Nat) (n : NodeState)
    (h : lookupNode nodes id = some n) : (id, n) ∈ nodes := by
  simp only [lookupNode, Option.map_eq_some'] at h
  obtain ⟨p, hp, hn⟩ := h
  have hm := List.mem_of_find?_eq_some hp
  have he := List.find?_some hp
  simp only [decide_eq_true_eq] at he
  cases p
  simp_all

/-- A pointwise property survives a node update when the new node
satisfies it at the updated key. -/
theorem forall_updateNode {P : Nat × NodeState → Prop}
    (nodes : List (Nat × NodeState)) (id : Nat) (n : NodeState)
    (hall : ∀ p ∈ nodes, P p) (hnew : P (id, n)) :
    ∀ p ∈ updateNode nodes id n, P p := by
  intro p hp
  simp only [updateNode, List.mem_map] at hp
  obtain ⟨q, hq, hpq⟩ := hp
  by_cases h : q.1 = id
  · rw [if_pos h] at hpq
    subst hpq
    rw [h]
    exact hnew
  · rw [if_neg h] at hpq
    subst hpq
    exact hall q hq

theorem truncateLog_core (s : NodeState) (i : Nat) (s' : NodeState)
    (h : truncateLog s i = some s') : Pres4 s' s := by
  simp only [truncateLog] at h
  split at h
  · exact Option.noConfusion h
  · simp only [Option.some.injEq] at h
    subst h
    exact ⟨rfl, rfl, rfl, rfl⟩

theorem execOperations_core (s s' : NodeState) (h : execOperations s = some s') :
    Pres4 s' s := by
  simp only [execOperations, Option.bind_eq_bind, Option.pure_def, bind,
    Option.bind_eq_some, Option.some.injEq] at h
  obtain ⟨s1, hap, h⟩ := h
  obtain ⟨p1, p2, p3, p4, p5, p6, p7, p8, p9, p10, p11⟩ := applyLoop_preserves _ _ _ hap
  have hp : Pres4 s1 s := ⟨p9, by simp only [keysOf, p3], p1, p11⟩
  repeat' split at h
  all_goals
    simp only [Option.bind_eq_bind, Option.some_bind, Option.some.injEq] at h
  all_goals
    subst h
  all_goals
    exact pres4_trans ⟨rfl, rfl, rfl, rfl⟩ hp

theorem updateCommitIndex_core (s s' : NodeState) (h : updateCommitIndex s = some s') :
    Pres4 s' s := by
  simp only [updateCommitIndex] at h
  repeat' split at h
  all_goals first
    | exact Option.noConfusion h
    | (simp only [Option.some.injEq] at h
       subst h
       exact ⟨rfl, rfl, rfl, rfl⟩)

theorem flush_core (s s' : NodeState) (h : flush s = some s') : Pres4 s' s := by
  simp only [flush, Option.bind_eq_bind, bind] at h
  split at h
  · exact Option.noConfusion h
  · simp only [Option.bind_eq_some] at h
    obtain ⟨s1, hu, he⟩ := h
    exact pres4_trans (execOperations_core _ _ he) (updateCommitIndex_core _ _ hu)

theorem spawnAppendEntriesTask_core (s : NodeState) (dest : Nat) (s' : NodeState) (m : AEMsg)
    (h : spawnAppendEntriesTask s dest = some (s', m)) : Pres4 s' s := by
  simp only [spawnAppendEntriesTask, Option.bind_eq_bind, bind, Option.bind_eq_some,
    Option.some.injEq, Prod.mk.injEq] at h
  obtain ⟨node, hl, h⟩ := h
  split at h
  · exact Option.noConfusion h
  · simp only [Option.some.injEq, Prod.mk.injEq] at h
    obtain ⟨h1, -⟩ := h
    subst h1
    exact ⟨rfl, rfl, rfl, rfl⟩

theorem spawnToAll_core (dests : List Nat) (s s' : NodeState) (ms : List AEMsg)
    (h : spawnToAll s dests = some (s', ms)) : Pres4 s' s := by
  induction dests generalizing s ms with
  | nil =>
    simp only [spawnToAll, Option.some.injEq, Prod.mk.injEq] at h
    obtain ⟨h1, -⟩ := h
    subst h1
    exact pres4_refl s
  | cons d rest ih =>
    simp only [spawnToAll, Option.bind_eq_bind, bind, Option.bind_eq_some] at h
    obtain ⟨⟨s1, m1⟩, h1, ⟨s2, ms2⟩, h2, h3⟩ := h
    simp only [Option.some.injEq, Prod.mk.injEq] at h3
    obtain ⟨h4, -⟩ := h3
    subst h4
    exact pres4_trans (ih _ _ h2) (spawnAppendEntriesTask_core _ _ _ _ h1)

theorem sendAppendEntriesToAll_core (s s' : NodeState) (ms : List AEMsg)
    (h : sendAppendEntriesToAll s = some (s', ms)) : Pres4 s' s := by
  simp only [sendAppendEntriesToAll] at h
  split at h
  · exact Option.noConfusion h
  · exact spawnToAll_core _ _ _ _ h

theorem step5CommitUpdate_core (s : NodeState) (lc : Nat) :
    Pres4 (step5CommitUpdate s lc) s := by
  simp only [step5CommitUpdate]
  split
  · exact ⟨rfl, rfl, rfl, rfl⟩
  · exact pres4_refl s

theorem becomeCandidate_core (s : NodeState) :
    (becomeCandidate s).1.nodeId = s.nodeId ∧
      keysOf (becomeCandidate s).1 = keysOf s ∧
      (becomeCandidate s).1.state = .candidate ∧
      (becomeCandidate s).1.votedFor = some s.nodeId ∧
      ∀ m ∈ (becomeCandidate s).2, m.req.candidateId = s.nodeId ∧ m.dest ≠ s.nodeId := by
  simp only [becomeCandidate, updateCurrentTerm, voteFor, keysOf]
  refine ⟨by trivial, ?_, by trivial, by trivial, ?_⟩
  · exact map_fst_of_fst_eq s.peers _ (fun p => rfl)
  · intro m hm
    simp only [List.mem_map, List.mem_filter] at hm
    obtain ⟨d, ⟨hd1, hd2⟩, rfl⟩ := hm
    simp only [decide_eq_true_eq] at hd2
    exact ⟨rfl, hd2⟩

theorem becomeLeader_core (s s' : NodeState) (ms : List AEMsg)
    (h : becomeLeader s = some (s', ms)) :
    s'.nodeId = s.nodeId ∧ keysOf s' = keysOf s ∧ s'.state = .leader ∧
      s'.votedFor = s.votedFor := by
  simp only [becomeLeader, bind, Option.bind_eq_bind, Option.bind_eq_some, Option.pure_def,
    Option.some.injEq, Prod.mk.injEq] at h
  obtain ⟨⟨s3, msgs⟩, h1, s4, h2, h3, -⟩ := h
  subst h3
  obtain ⟨a1, a2, a3, a4⟩ := sendAppendEntriesToAll_core _ _ _ h1
  obtain ⟨b1, b2, b3, b4⟩ := flush_core _ _ h2
  refine ⟨b1.trans (a1.trans rfl), ?_, b3.trans (a3.trans rfl), b4.trans (a4.trans rfl)⟩
  refine (b2.trans a2).trans ?_
  simp only [keysOf]
  exact map_fst_of_fst_eq s.peers _ (fun p => by by_cases hq : p.1 = s.nodeId <;> simp [hq])


theorem startElection_pres (s s' : NodeState) (aes : List AEMsg) (rvs : List RVMsg)
    (h : startElection s = some (s', aes, rvs)) :
    s'.nodeId = s.nodeId ∧ keysOf s' = keysOf s ∧
      (s.peers.length = 1 → rvs = []) ∧
      (s.peers.length ≠ 1 → VoteInvP s') ∧
      (∀ m ∈ rvs, m.req.candidateId = s.nodeId ∧ m.dest ≠ s.nodeId) := by
  simp only [startElection, bind, Option.bind_eq_bind, Option.pure_def] at h
  split at h
  · exact Option.noConfusion h
  · split at h
    · -- single-node cluster: bump the term and become leader directly
      split at h
      · exact Option.noConfusion h
      · rename_i hone hany
        rw [Option.bind_eq_some] at h
        obtain ⟨⟨s2, msgs⟩, h1, h2⟩ := h
        simp only [Option.some.injEq, Prod.mk.injEq] at h2
        obtain ⟨hs2, ha, hrv⟩ := h2
        subst hs2
        subst hrv
        obtain ⟨a1, a2, a3, a4⟩ := becomeLeader_core _ _ _ h1
        exact ⟨a1.trans rfl, a2.trans rfl, fun _ => rfl,
          fun hc => absurd hone hc, by simp⟩
    · -- multi-node cluster: become candidate and broadcast RequestVote
      rename_i hone
      simp only [Option.some.injEq, Prod.mk.injEq] at h
      obtain ⟨hs', ha, hrv⟩ := h
      subst hs'
      subst hrv
      obtain ⟨c1, c2, c3, c4, c5⟩ := becomeCandidate_core s
      refine ⟨c1, c2, fun hc => absurd hc hone, fun _ => ?_, c5⟩
      intro _
      rw [c4, c1]


theorem handleWrite_pres (s : NodeState) (cmd : Nat) (s' : NodeState)
    (h : handleWrite s cmd = some s') : Pres4 s' s := by
  simp only [handleWrite, bind, Option.bind_eq_bind, Option.pure_def] at h
  split at h
  · simp only [Option.some.injEq] at h
    subst h
    exact pres4_refl s
  · simp only [Option.some_bind, Option.bind_eq_some] at h
    obtain ⟨u, hu, hf⟩ := h
    refine pres4_trans (flush_core _ _ hf) ⟨rfl, ?_, rfl, rfl⟩
    simp only [keysOf]
    exact (updatePeer_keys _ _ _).trans rfl

theorem handleRead_pres (s s' : NodeState) (h : handleRead s = some s') : Pres4 s' s := by
  simp only [handleRead, bind, Option.bind_eq_bind, Option.pure_def] at h
  split at h
  · exact pres4_trans (flush_core _ _ h) ⟨rfl, rfl, rfl, rfl⟩
  · simp only [Option.some.injEq] at h
    subst h
    exact pres4_refl s


theorem handleAppendEntriesResponse_pres (s : NodeState) (peer : Nat)
    (resp : AppendEntriesResp) (s' : NodeState) (out : Option AEMsg)
    (h : handleAppendEntriesResponse s peer resp = some (s', out)) : PresV s' s := by
  simp only [handleAppendEntriesResponse, bind, Option.bind_eq_bind, Option.pure_def] at h
  split at h
  · simp only [Option.some.injEq, Prod.mk.injEq] at h
    obtain ⟨h1, -⟩ := h
    subst h1
    exact ⟨rfl, rfl, fun hv => hv⟩
  · split at h
    · -- newer term: step down to follower
      simp only [Option.some_bind, Option.some.injEq, Prod.mk.injEq] at h
      obtain ⟨h1, -⟩ := h
      subst h1
      refine ⟨rfl, rfl, fun _ => ?_⟩
      intro hs
      exact absurd rfl hs
    · simp only [Option.some_bind, Option.bind_eq_some] at h
      obtain ⟨node, hn, h⟩ := h
      split at h
      · -- failure response
        split at h
        · simp only [Option.some.injEq, Prod.mk.injEq] at h
          obtain ⟨h1, -⟩ := h
          subst h1
          exact ⟨rfl, rfl, fun hv => hv⟩
        · simp only [Option.some_bind, Option.bind_eq_some] at h
          obtain ⟨⟨s2, msg⟩, h1, h2⟩ := h
          simp only [Option.some.injEq, Prod.mk.injEq] at h2
          obtain ⟨h3, -⟩ := h2
          subst h3
          refine presV_of_pres4 (pres4_trans (spawnAppendEntriesTask_core _ _ _ _ h1)
            ⟨rfl, ?_, rfl, rfl⟩)
          simp only [keysOf]
          exact (updatePeer_keys _ _ _).trans rfl
      · -- success response: record the acknowledgement and flush
        simp only [Option.some_bind, Option.bind_eq_some] at h
        obtain ⟨s2, h1, h2⟩ := h
        simp only [Option.some.injEq, Prod.mk.injEq] at h2
        obtain ⟨h3, -⟩ := h2
        subst h3
        refine presV_of_pres4 (pres4_trans (flush_core _ _ h1) ⟨rfl, ?_, rfl, rfl⟩)
        simp only [keysOf]
        exact (updatePeer_keys _ _ _).trans rfl
theorem handleRequestVoteResponse_pres (s : NodeState) (peer : Nat)
    (resp : RequestVoteResp) (s' : NodeState) (out : List AEMsg)
    (h : handleRequestVoteResponse s peer resp = some (s', out)) : PresV s' s := by
  simp only [handleRequestVoteResponse, bind, Option.bind_eq_bind, Option.pure_def] at h
  split at h
  · -- newer term: step down to follower
    simp only [Option.some_bind, Option.some.injEq, Prod.mk.injEq] at h
    obtain ⟨h1, -⟩ := h
    subst h1
    refine ⟨rfl, rfl, fun _ => ?_⟩
    intro hs
    exact absurd rfl hs
  · split at h
    · -- no longer a candidate in that term: ignore
      simp only [Option.some_bind, Option.some.injEq, Prod.mk.injEq] at h
      obtain ⟨h1, -⟩ := h
      subst h1
      exact ⟨rfl, rfl, fun hv => hv⟩
    · rename_i hng hcand
      split at h
      · -- vote granted: record it and possibly become leader
        simp only [Option.some_bind, Option.bind_eq_some] at h
        obtain ⟨node, hn, h⟩ := h
        split at h
        · -- majority reached: become leader
          obtain ⟨a1, a2, a3, a4⟩ := becomeLeader_core _ _ _ h
          have hc : s.state = .candidate := by
            by_contra hcc
            exact hcand (Or.inl hcc)
          have hkeys : keysOf s' = keysOf s := by
            refine a2.trans ?_
            simp only [keysOf]
            exact (updatePeer_keys _ _ _).trans rfl
          refine ⟨a1.trans rfl, hkeys, fun hv => ?_⟩
          intro _
          rw [a4, a1]
          exact hv (by rw [hc]; intro hx; exact RaftState.noConfusion hx)
        · -- no majority yet
          simp only [Option.some.injEq, Prod.mk.injEq] at h
          obtain ⟨h1, -⟩ := h
          subst h1
          refine presV_of_pres4 ⟨rfl, ?_, rfl, rfl⟩
          simp only [keysOf]
          exact (updatePeer_keys _ _ _).trans rfl
      · -- vote not granted: ignore
        simp only [Option.some_bind, Option.some.injEq, Prod.mk.injEq] at h
        obtain ⟨h1, -⟩ := h
        subst h1
        exact ⟨rfl, rfl, fun hv => hv⟩
/-- The shared tail of `handle_append_entries` (steps 3-7 after the
prev-log check), stated on an arbitrary post-check state; used to reason
about the handler without duplicating the fall-through continuation. -/
def haeTail (s3 : NodeState) (r : AppendEntriesReq) :
    Option (NodeState × AppendEntriesResp) := do
  let (numMatching, conflictAt) := scanConflicts s3.log r.prevLogIndex r.entries 0
  let s4 ← match conflictAt with
           | some idx => truncateLog s3 idx
           | none => pure s3
  let s5 :=
    if numMatching < r.entries.length then
      { s4 with log := memAppendEntries s4.log (r.entries.drop numMatching) }
    else s4
  let s6 := step5CommitUpdate s5 r.leaderCommit
  let s7 ← execOperations s6
  return (s7, ⟨s7.currentTerm, true, r.messageIndex, r.prevLogIndex + r.entries.length⟩)

theorem haeTail_pres (s3 : NodeState) (r : AppendEntriesReq) (n' : NodeState)
    (resp : AppendEntriesResp) (h : haeTail s3 r = some (n', resp)) : Pres4 n' s3 := by
  simp only [haeTail, bind, Option.bind_eq_bind, Option.pure_def] at h
  rcases hsc : scanConflicts s3.log r.prevLogIndex r.entries 0 with ⟨nm, ca⟩
  rw [hsc] at h
  cases ca with
  | some idx =>
    simp only [Option.bind_eq_some] at h
    obtain ⟨s4, h4, s7, h7, hfin⟩ := h
    simp only [Option.some.injEq, Prod.mk.injEq] at hfin
    obtain ⟨h1, -⟩ := hfin
    subst h1
    refine pres4_trans (execOperations_core _ _ h7)
      (pres4_trans (step5CommitUpdate_core _ _)
        (pres4_trans ?_ (truncateLog_core _ _ _ h4)))
    split
    · exact ⟨rfl, rfl, rfl, rfl⟩
    · exact pres4_refl _
  | none =>
    simp only [Option.some_bind, Option.bind_eq_some] at h
    obtain ⟨s7, h7, hfin⟩ := h
    simp only [Option.some.injEq, Prod.mk.injEq] at hfin
    obtain ⟨h1, -⟩ := hfin
    subst h1
    refine pres4_trans (execOperations_core _ _ h7)
      (pres4_trans (step5CommitUpdate_core _ _) ?_)
    split
    · exact ⟨rfl, rfl, rfl, rfl⟩
    · exact pres4_refl _
/-- The prev-log check of `handle_append_entries` (with `ci` the log
length captured at handler entry), followed by the shared tail. -/
def haeCheck (t : NodeState) (r : AppendEntriesReq) (ci : Nat) :
    Option (NodeState × AppendEntriesResp) := do
  if r.prevLogIndex > 0 then
    match memEntry t.log r.prevLogIndex with
    | some e =>
      if e.term ≠ r.prevLogTerm then
        let s4 ← truncateLog t r.prevLogIndex
        return (s4, ⟨s4.currentTerm, false, r.messageIndex, ci⟩)
    | none =>
      return (t, ⟨t.currentTerm, false, r.messageIndex, ci⟩)
  haeTail t r

/-- `handle_append_entries`, factored through `haeCheck`/`haeTail`
(definitionally equal to the monolithic definition). -/
theorem handleAppendEntries_factored (s0 : NodeState) (r : AppendEntriesReq) :
    handleAppendEntries s0 r =
      (do
        let currentIndex := s0.log.length
        if r.term < s0.currentTerm then
          return (s0, ⟨s0.currentTerm, false, r.messageIndex, currentIndex⟩)
        let s1 := if r.term > s0.currentTerm then updateCurrentTerm s0 r.term else s0
        let s2 := if s1.state ≠ .follower then becomeFollower s1 else s1
        haeCheck { s2 with leaderId := some r.leaderId } r currentIndex) := rfl

theorem haeCheck_pres (t : NodeState) (r : AppendEntriesReq) (ci : Nat) (n' : NodeState)
    (resp : AppendEntriesResp) (h : haeCheck t r ci = some (n', resp)) : Pres4 n' t := by
  simp only [haeCheck, bind, Option.bind_eq_bind, Option.pure_def] at h
  split at h
  · -- prev_log_index > 0
    split at h
    · -- a local entry exists at prev_log_index
      split at h
      · -- term conflict: truncate and reply false
        simp only [Option.bind_eq_some] at h
        obtain ⟨s4, h4, hfin⟩ := h
        simp only [Option.some.injEq, Prod.mk.injEq] at hfin
        obtain ⟨h1, -⟩ := hfin
        subst h1
        exact truncateLog_core _ _ _ h4
      · -- terms match: fall through to the tail
        simp only [Option.some_bind] at h
        exact haeTail_pres _ _ _ _ h
    · -- no local entry: reply false
      simp only [Option.some.injEq, Prod.mk.injEq] at h
      obtain ⟨h1, -⟩ := h
      subst h1
      exact pres4_refl t
  · -- prev_log_index = 0: straight to the tail
    simp only [Option.some_bind] at h
    exact haeTail_pres _ _ _ _ h

theorem handleAppendEntries_pres (s0 : NodeState) (r : AppendEntriesReq) (n' : NodeState)
    (resp : AppendEntriesResp) (h : handleAppendEntries s0 r = some (n', resp)) :
    PresV n' s0 := by
  rw [handleAppendEntries_factored] at h
  simp only [bind, Option.bind_eq_bind, Option.pure_def, Option.some_bind] at h
  split at h
  · -- stale term: reply false, no state change
    simp only [Option.some.injEq, Prod.mk.injEq] at h
    obtain ⟨h1, -⟩ := h
    subst h1
    exact ⟨rfl, rfl, fun hv => hv⟩
  · obtain ⟨p1, p2, p3, p4⟩ := haeCheck_pres _ _ _ _ _ h
    have hstate : n'.state = .follower := by
      simp only [apply_ite NodeState.state, becomeFollower] at p3
      split at p3 <;> split at p3 <;>
        first
          | exact p3
          | (rename_i hc2
             push_neg at hc2
             rw [hc2] at p3
             exact p3)
    have hnode : n'.nodeId = s0.nodeId := by
      simp only [apply_ite NodeState.nodeId, becomeFollower, updateCurrentTerm, ite_self] at p1
      exact p1
    have hkeys : keysOf n' = keysOf s0 := by
      simp only [keysOf, apply_ite NodeState.peers, becomeFollower, updateCurrentTerm,
        ite_self] at p2
      exact p2
    refine ⟨hnode, hkeys, fun _ => ?_⟩
    intro hs
    exact absurd hstate hs
theorem handleRequestVote_pres (s : NodeState) (r : RequestVoteReq) (n' : NodeState)
    (resp : RequestVoteResp) (h : handleRequestVote s r = some (n', resp)) : PresV n' s := by
  simp only [handleRequestVote, bind, Option.bind_eq_bind, Option.pure_def,
    Option.some_bind] at h
  repeat' split at h
  all_goals first
    | exact Option.noConfusion h
    | (simp only [Option.some.injEq, Prod.mk.injEq] at h
       obtain ⟨h1, -⟩ := h
       subst h1
       first
         | exact ⟨rfl, rfl, fun hv => hv⟩
         | exact ⟨rfl, rfl, fun _ hs => absurd rfl hs⟩
         | (rename_i hf
            push_neg at hf
            exact ⟨rfl, rfl, fun _ hs => absurd hf hs⟩))
/-- If the candidate id differs from the node's own id and the node has
voted for itself whenever it is not a Follower, then `handle_request_vote`
cannot reach the Follower assertion in a non-Follower state: it returns
normally, and a granted vote leaves the node a Follower. -/
theorem handleRequestVote_safe (n : NodeState) (r : RequestVoteReq)
    (hc : r.candidateId ≠ n.nodeId)
    (hv : n.state ≠ .follower → n.votedFor = some n.nodeId) :
    ∃ n' resp, handleRequestVote n r = some (n', resp) ∧
      (resp.voteGranted = true → n'.state = .follower) := by
  simp only [handleRequestVote, bind, Option.bind_eq_bind, Option.pure_def, Option.some_bind]
  by_cases ht : r.term > n.currentTerm
  · rw [if_pos ht]
    simp only [becomeFollower, updateCurrentTerm]
    rw [if_neg (lt_irrefl _)]
    split
    · exact ⟨_, _, rfl, by simp⟩
    · rw [if_neg (by simp)]
      exact ⟨_, _, rfl, fun _ => rfl⟩
  · rw [if_neg ht]
    by_cases hf : n.state = .follower
    · split
      · exact ⟨_, _, rfl, by simp⟩
      · cases hvf : n.votedFor with
        | some id =>
          simp only []
          split
          · exact ⟨_, _, rfl, by simp⟩
          · split
            · exact ⟨_, _, rfl, by simp⟩
            · rw [if_neg (by simp [hf])]
              exact ⟨_, _, rfl, fun _ => by simp [voteFor, hf]⟩
        | none =>
          simp only []
          split
          · exact ⟨_, _, rfl, by simp⟩
          · rw [if_neg (by simp [hf])]
            exact ⟨_, _, rfl, fun _ => by simp [voteFor, hf]⟩
    · have hvf := hv hf
      split
      · exact ⟨_, _, rfl, by simp⟩
      · rw [hvf]
        simp only []
        rw [if_pos (Ne.symm hc)]
        exact ⟨_, _, rfl, by simp⟩
/-- The cluster invariant behind the Follower assertion: node keys match
the configuration, every node knows its own id and the full membership,
every non-Follower of a multi-node cluster has voted for itself, and
every in-flight RequestVote names a candidate other than its destination
(and only exists in a multi-node cluster). -/
structure Inv (ids : List Nat) (w : World) : Prop where
  nodesKeys : w.nodes.map Prod.fst = ids
  nodesWF : ∀ p ∈ w.nodes, p.2.nodeId = p.1 ∧ keysOf p.2 = ids
  voteInv : 2 ≤ ids.length → ∀ p ∈ w.nodes, VoteInvP p.2
  rvWF : ∀ m ∈ w.rvMsgs, m.req.candidateId ≠ m.dest ∧ 2 ≤ ids.length

theorem map_fst_pairs {β : Type} (l : List Nat) (g : Nat → β) :
    (l.map (fun i => (i, g i))).map Prod.fst = l := by
  induction l with
  | nil => rfl
  | cons a t ih => simp [ih]

theorem inv_init (ids : List Nat) : Inv ids (initWorld ids) := by
  refine ⟨?_, ?_, ?_, ?_⟩
  · exact map_fst_pairs ids _
  · intro p hp
    simp only [initWorld, List.mem_map] at hp
    obtain ⟨i, hi, rfl⟩ := hp
    exact ⟨rfl, map_fst_pairs ids _⟩
  · intro _ p hp
    simp only [initWorld, List.mem_map] at hp
    obtain ⟨i, hi, rfl⟩ := hp
    intro hs
    exact absurd rfl hs
  · intro m hm
    simp only [initWorld] at hm
    exact absurd hm (List.not_mem_nil m)
/-- Updating one node with an identity-, key- and vote-invariant
preserving handler keeps the node-level invariant components. -/
theorem inv_nodes_update (ids : List Nat) (w : World) (hi : Inv ids w) (id : Nat)
    (n n' : NodeState) (hn : lookupNode w.nodes id = some n) (hp : PresV n' n) :
    (updateNode w.nodes id n').map Prod.fst = ids ∧
      (∀ p ∈ updateNode w.nodes id n', p.2.nodeId = p.1 ∧ keysOf p.2 = ids) ∧
      (2 ≤ ids.length → ∀ p ∈ updateNode w.nodes id n', VoteInvP p.2) := by
  have hpm := lookupNode_mem _ _ _ hn
  obtain ⟨hid, hks⟩ := hi.nodesWF _ hpm
  obtain ⟨q1, q2, q3⟩ := hp
  refine ⟨?_, ?_, ?_⟩
  · rw [updateNode_keys]
    exact hi.nodesKeys
  · exact forall_updateNode _ _ _ hi.nodesWF ⟨q1.trans hid, q2.trans hks⟩
  · intro h2
    exact forall_updateNode _ _ _ (hi.voteInv h2) (q3 (hi.voteInv h2 _ hpm))

/-- Every cluster step preserves the invariant. -/
theorem inv_step (ids : List Nat) (w w' : World) (hi : Inv ids w) (hs : WStep w w') :
    Inv ids w' := by
  cases hs with
  | deliverAE k h =>
    simp only [deliverAEW, bind, Option.bind_eq_bind, Option.bind_eq_some,
      Option.some.injEq] at h
    obtain ⟨m, hm, n, hn, ⟨n2, resp⟩, hh, hw'⟩ := h
    subst hw'
    obtain ⟨k1, k2, k3⟩ := inv_nodes_update ids w hi m.dest n n2 hn
      (handleAppendEntries_pres _ _ _ _ hh)
    exact ⟨k1, k2, k3, fun m2 hm2 => hi.rvWF m2 hm2⟩
  | deliverRV k h =>
    simp only [deliverRVW, bind, Option.bind_eq_bind, Option.bind_eq_some,
      Option.some.injEq] at h
    obtain ⟨m, hm, n, hn, ⟨n2, resp⟩, hh, hw'⟩ := h
    subst hw'
    obtain ⟨k1, k2, k3⟩ := inv_nodes_update ids w hi m.dest n n2 hn
      (handleRequestVote_pres _ _ _ _ hh)
    exact ⟨k1, k2, k3, fun m2 hm2 => hi.rvWF m2 (List.mem_of_mem_eraseIdx hm2)⟩
  | deliverAEResp k h =>
    simp only [deliverAERespW, bind, Option.bind_eq_bind, Option.bind_eq_some,
      Option.some.injEq] at h
    obtain ⟨m, hm, n, hn, ⟨n2, msg⟩, hh, hw'⟩ := h
    subst hw'
    obtain ⟨k1, k2, k3⟩ := inv_nodes_update ids w hi m.origin n n2 hn
      (handleAppendEntriesResponse_pres _ _ _ _ _ hh)
    exact ⟨k1, k2, k3, fun m2 hm2 => hi.rvWF m2 hm2⟩
  | deliverRVResp k h =>
    simp only [deliverRVRespW, bind, Option.bind_eq_bind, Option.bind_eq_some,
      Option.some.injEq] at h
    obtain ⟨m, hm, n, hn, ⟨n2, msgs⟩, hh, hw'⟩ := h
    subst hw'
    obtain ⟨k1, k2, k3⟩ := inv_nodes_update ids w hi m.origin n n2 hn
      (handleRequestVoteResponse_pres _ _ _ _ _ hh)
    exact ⟨k1, k2, k3, fun m2 hm2 => hi.rvWF m2 hm2⟩
  | clientWrite id cmd h =>
    simp only [clientWriteW, bind, Option.bind_eq_bind, Option.bind_eq_some,
      Option.some.injEq] at h
    obtain ⟨n, hn, n2, hh, hw'⟩ := h
    subst hw'
    obtain ⟨k1, k2, k3⟩ := inv_nodes_update ids w hi id n n2 hn
      (presV_of_pres4 (handleWrite_pres _ _ _ hh))
    exact ⟨k1, k2, k3, fun m2 hm2 => hi.rvWF m2 hm2⟩
  | clientRead id h =>
    simp only [clientReadW, bind, Option.bind_eq_bind, Option.bind_eq_some,
      Option.some.injEq] at h
    obtain ⟨n, hn, n2, hh, hw'⟩ := h
    subst hw'
    obtain ⟨k1, k2, k3⟩ := inv_nodes_update ids w hi id n n2 hn
      (presV_of_pres4 (handleRead_pres _ _ hh))
    exact ⟨k1, k2, k3, fun m2 hm2 => hi.rvWF m2 hm2⟩
  | heartbeat id h =>
    simp only [heartbeatW, bind, Option.bind_eq_bind, Option.bind_eq_some] at h
    obtain ⟨n, hn, h⟩ := h
    split at h
    · exact Option.noConfusion h
    · rw [Option.bind_eq_some] at h
      obtain ⟨⟨n2, msgs⟩, hs2, hw'⟩ := h
      simp only [Option.some.injEq] at hw'
      subst hw'
      obtain ⟨k1, k2, k3⟩ := inv_nodes_update ids w hi id n n2 hn
        (presV_of_pres4 (sendAppendEntriesToAll_core _ _ _ hs2))
      exact ⟨k1, k2, k3, fun m2 hm2 => hi.rvWF m2 hm2⟩
  | electionTimeout id h =>
    simp only [electionTimeoutW, bind, Option.bind_eq_bind, Option.bind_eq_some] at h
    obtain ⟨n, hn, h⟩ := h
    split at h
    · exact Option.noConfusion h
    · rw [Option.bind_eq_some] at h
      obtain ⟨⟨n2, aes, rvs⟩, hs2, hw'⟩ := h
      simp only [Option.some.injEq] at hw'
      subst hw'
      obtain ⟨e1, e2, e3, e4, e5⟩ := startElection_pres _ _ _ _ hs2
      have hpm := lookupNode_mem _ _ _ hn
      obtain ⟨hid, hks⟩ := hi.nodesWF _ hpm
      have hidmem : id ∈ ids := by
        rw [← hi.nodesKeys]
        exact List.mem_map.mpr ⟨(id, n), hpm, rfl⟩
      have hlen1 : 1 ≤ ids.length := List.length_pos_of_mem hidmem
      have hplen : n.peers.length = ids.length := by
        have hc := congrArg List.length hks
        simp only [keysOf, List.length_map] at hc
        exact hc
      refine ⟨?_, ?_, ?_, ?_⟩
      · rw [updateNode_keys]
        exact hi.nodesKeys
      · exact forall_updateNode _ _ _ hi.nodesWF ⟨e1.trans hid, e2.trans hks⟩
      · intro h2
        refine forall_updateNode _ _ _ (hi.voteInv h2) (e4 ?_)
        rw [hplen]
        omega
      · intro m2 hm2
        simp only [List.mem_append] at hm2
        cases hm2 with
        | inl h0 => exact hi.rvWF m2 h0
        | inr h1 =>
          by_cases hp1 : n.peers.length = 1
          · rw [e3 hp1] at h1
            exact absurd h1 (List.not_mem_nil m2)
          · obtain ⟨c1, c2⟩ := e5 m2 h1
            have h2 : 2 ≤ ids.length := by
              rw [hplen] at hp1
              omega
            refine ⟨?_, h2⟩
            rw [c1]
            exact fun he => c2 he.symm

/-- The invariant holds in every reachable cluster state. -/
theorem inv_reachable (ids : List Nat) (w : World) (h : WReachable ids w) : Inv ids w := by
  have h' : Relation.ReflTransGen WStep (initWorld ids) w := h
  clear h
  induction h' with
  | refl => exact inv_init ids
  | tail h1 h2 ih => exact inv_step ids _ _ ih h2
/-- **C10.** In every cluster state reachable under the protocol step
relation over the configured membership (no RPCs from outside the fixed
membership), delivering any in-flight RequestVote to its destination
never fails: the handler returns (the `assert_eq!(self.state, Follower)`
just before recording the vote never fires), and whenever it grants the
vote (`vote_granted = true`) the node is in Follower state at that
moment (the returned node state is a Follower, `vote_for` not changing
the state). -/
theorem c10_vote_granted_only_as_follower (ids : List Nat) (w : World)
    (hr : WReachable ids w) (k : Nat) (m : RVMsg)
    (hm : w.rvMsgs.get? k = some m) (n : NodeState)
    (hn : lookupNode w.nodes m.dest = some n) :
    handleRequestVote n m.req ≠ none ∧
      ∀ n' resp, handleRequestVote n m.req = some (n', resp) →
        resp.voteGranted = true → n'.state = .follower := by
  have hi := inv_reachable ids w hr
  obtain ⟨hcand, hlen⟩ := hi.rvWF m (List.get?_mem hm)
  have hpm := lookupNode_mem _ _ _ hn
  obtain ⟨hid, -⟩ := hi.nodesWF _ hpm
  have hv : VoteInvP n := hi.voteInv hlen _ hpm
  have hc : m.req.candidateId ≠ n.nodeId := by
    rw [hid]
    exact hcand
  obtain ⟨n2, resp2, he, hg⟩ := handleRequestVote_safe n m.req hc hv
  refine ⟨by rw [he]; exact Option.noConfusion, ?_⟩
  intro n' resp h2 hgr
  rw [he] at h2
  simp only [Option.some.injEq, Prod.mk.injEq] at h2
  obtain ⟨h3, h4⟩ := h2
  subst h3
  subst h4
  exact hg hgr

/-- A freshly started two-node cluster in which node 0's election timer
has fired: one RequestVote from node 0 to node 1 is in flight. -/
def c10World : World :=
  (runTrace (initWorld [0, 1]) [.timeout 0]).getD (initWorld [0, 1])

def c10Msg : RVMsg := ((c10World.rvMsgs.get? 0).getD ⟨0, 0, ⟨0, 0, 0, 0⟩⟩)

def c10Node : NodeState :=
  (lookupNode c10World.nodes c10Msg.dest).getD (initNode 0 [0, 1])

theorem c10_vote_granted_only_as_follower_witness :
    (handleRequestVote c10Node c10Msg.req ≠ none) ∧
      (handleRequestVote c10Node c10Msg.req).map
        (fun p => (p.2.voteGranted, p.1.state)) = some (true, .follower) :=
  ⟨(c10_vote_granted_only_as_follower [0, 1] c10World
      (runTrace_reachable [.timeout 0] (initWorld [0, 1]) c10World rfl)
      0 c10Msg rfl c10Node rfl).1,
    rfl⟩
end Zakros
